import Mathlib

/-!
Verification of the EcoGrid+ backend core against its specification.

This file shallowly embeds the Python source of the repository
(`src/backend/data_structures/*.py`, `src/backend/algorithms/*.py`, and the
queue-coalescing part of `src/backend/app.py`) into Lean and proves or
refutes the specification claims about it.

Modelling conventions, used throughout:

* Python floats are modelled as `ℚ` (all arithmetic in the embedded code is
  exact on the inputs appearing in the claims; no rounding behaviour is
  relied upon by any claim).
* Python dicts are modelled as insertion-ordered association lists
  (`List (κ × β)`) with first-match lookup; `dictSet` updates an existing
  key in place and appends a fresh key at the end, exactly like a Python
  dict.  `collections.defaultdict(list)` reads of a missing key yield `[]`.
* `float('inf')` distances are modelled as `Option ℚ` with `none` standing
  for infinity; the explicit comparison functions below mirror the Python
  comparisons against infinity.
* `heapq` is modelled by its documented contract: the heap list holds a
  multiset of entries and `heappop` removes a least entry with respect to
  lexicographic tuple comparison (`extractMin` below removes the first
  least entry; whenever the source relies on pop order, entries are
  totally ordered, so this choice is extensionally faithful).
* Loops whose termination is not structural are given explicit fuel; the
  theorems below prove the chosen fuel is sufficient on the states that
  the source can reach, so the fuel-exhausted branch is never taken there.
* `datetime.now()` timestamps, wall-clock execution times, logging, Flask
  plumbing and the persistence sink are not modelled: no claim mentions
  them, and the PriorityEvent timestamp field is declared compare=False in
  the source.
-/

namespace EcoGrid

/-- Python dict lookup: first binding of the key, if any. -/
def dictGet {κ β : Type} [DecidableEq κ] : List (κ × β) → κ → Option β
  | [], _ => none
  | (k', v) :: rest, k => if k' = k then some v else dictGet rest k

/-- Python dict assignment: replaces the binding in place if the key exists,
otherwise appends the new binding at the end (dict insertion order). -/
def dictSet {κ β : Type} [DecidableEq κ] : List (κ × β) → κ → β → List (κ × β)
  | [], k, v => [(k, v)]
  | (k', v') :: rest, k, v =>
    if k' = k then (k, v) :: rest else (k', v') :: dictSet rest k v

/-- Removes and returns the first least element of a list with respect to a
boolean total preorder `le`, together with the remaining list.  This models a
`heapq.heappop` on a list that represents the heap's multiset of entries. -/
def extractMin {β : Type} (le : β → β → Bool) : List β → Option (β × List β)
  | [] => none
  | x :: xs =>
    match extractMin le xs with
    | none => some (x, [])
    | some (m, rest) => if le x m then some (x, xs) else some (m, x :: rest)

/-! ## EventQueue (`src/backend/data_structures/event_queue.py`)

`Event` objects carry an arbitrary payload dict; the payload type is kept
abstract as a type parameter.  The `timestamp` field is not modelled. -/

/-- The `Event` class of `event_queue.py` (fields `event_type`, `node_id`,
`data`, `priority`). -/
structure QEvent (α : Type) where
  event_type : String
  node_id : String
  data : α
  priority : Nat
deriving DecidableEq

/-- The `EventQueue` class: a `collections.deque(maxlen=max_size)` plus the
`processed` and `dropped` counters. -/
structure EventQueue (α : Type) where
  queue : List (QEvent α)
  maxlen : Nat
  processed : Nat
  dropped : Nat
deriving DecidableEq

/-- Appending to a `collections.deque` with a `maxlen`: when the deque is
full, elements are discarded from the opposite (left) end. -/
def dequeAppend {β : Type} (maxlen : Nat) (q : List β) (e : β) : List β :=
  if q.length < maxlen then q ++ [e] else (q ++ [e]).drop (q.length + 1 - maxlen)

/-- `EventQueue.enqueue`: on a full deque the `dropped` counter is
incremented and the append evicts the oldest element (deque semantics). -/
def EventQueue.enqueue {α : Type} (s : EventQueue α) (e : QEvent α) : EventQueue α :=
  if s.queue.length = s.maxlen then
    { s with dropped := s.dropped + 1, queue := dequeAppend s.maxlen s.queue e }
  else
    { s with queue := dequeAppend s.maxlen s.queue e }

/-- `EventQueue.get_events_by_type`. -/
def EventQueue.get_events_by_type {α : Type} (s : EventQueue α) (t : String) : List (QEvent α) :=
  s.queue.filter (fun e => e.event_type = t)

/-! ## PriorityHeap (`src/backend/data_structures/priority_heap.py`)

The heap list stores `(priority, counter, event)` tuples pushed through
`heapq`.  The `PriorityEvent.timestamp` field is `compare=False` in the
source and is not modelled.  Tuple comparison is lexicographic; the third
component is a `PriorityEvent`, whose dataclass ordering compares only its
`priority` field, which on heap entries equals the first tuple component,
so the effective key is `(priority, counter)`. -/

/-- The `PriorityEvent` dataclass (without its compare=False timestamp). -/
structure PEvent (α : Type) where
  priority : Nat
  event_type : String
  node_id : String
  data : α
deriving DecidableEq

/-- The `PriorityHeap` class: the heap list and the tie-break counter. -/
structure PriorityHeap (α : Type) where
  heap : List (Nat × Nat × PEvent α)
  counter : Nat
deriving DecidableEq

/-- Lexicographic comparison of heap entries `(priority, counter, event)` as
performed by `heapq` on Python tuples. -/
def heapLe {α : Type} (a b : Nat × Nat × PEvent α) : Bool :=
  decide (a.1 < b.1) || (decide (a.1 = b.1) && decide (a.2.1 ≤ b.2.1))

/-- A fresh `PriorityHeap()`. -/
def PriorityHeap.empty {α : Type} : PriorityHeap α := ⟨[], 0⟩

/-- `PriorityHeap.push`: builds the event and pushes
`(priority, counter, event)`, then increments the counter. -/
def PriorityHeap.push {α : Type} (s : PriorityHeap α) (event_type node_id : String)
    (data : α) (priority : Nat) : PriorityHeap α :=
  { heap := s.heap ++ [(priority, s.counter, ⟨priority, event_type, node_id, data⟩)],
    counter := s.counter + 1 }

/-- `PriorityHeap.pop`: removes and returns the least entry (`heapq.heappop`). -/
def PriorityHeap.pop {α : Type} (s : PriorityHeap α) : Option (PEvent α) × PriorityHeap α :=
  match extractMin heapLe s.heap with
  | none => (none, s)
  | some (e, rest) => (some e.2.2, { s with heap := rest })

/-- `PriorityHeap.size`. -/
def PriorityHeap.size {α : Type} (s : PriorityHeap α) : Nat := s.heap.length

/-- `PriorityHeap.get_critical_events`: events with priority at most the
threshold, in heap-list order. -/
def PriorityHeap.get_critical_events {α : Type} (s : PriorityHeap α) (threshold : Nat) :
    List (PEvent α) :=
  (s.heap.filter (fun e => e.2.2.priority ≤ threshold)).map (fun e => e.2.2)

/-- States of `PriorityHeap` reachable through its public interface from a
fresh heap: pushes, pops and `clear` (which resets heap and counter). -/
inductive HeapReachable {α : Type} : PriorityHeap α → Prop
  | empty : HeapReachable PriorityHeap.empty
  | push {s : PriorityHeap α} (et nid : String) (d : α) (p : Nat) :
      HeapReachable s → HeapReachable (s.push et nid d p)
  | pop {s : PriorityHeap α} : HeapReachable s → HeapReachable (s.pop).2

/-! ## AVLTree (`src/backend/data_structures/avl_tree.py`)

Keys are the node-id strings; the data dict stored at each key holds the
fields the application writes into it (`capacity`, `current_load`,
`efficiency`, `type`).  The `balance_factor` field and the `rotations`
performance counter are write-only metrics in the source (read only by
`get_stats`, which no claim mentions) and are not modelled. -/

/-- The data dict stored in the AVL tree for each network node. -/
structure NodeInfo where
  capacity : ℚ
  current_load : ℚ
  efficiency : ℚ
  ntype : String
deriving DecidableEq

/-- The `AVLNode` class: key, data, children and the stored `height`. -/
inductive AVLNode where
  | nil : AVLNode
  | node (key : String) (data : NodeInfo) (left right : AVLNode) (height : Nat) : AVLNode
deriving DecidableEq

/-- `AVLTree.get_height` (0 for `None`). -/
def get_height : AVLNode → Nat
  | .nil => 0
  | .node _ _ _ _ h => h

/-- `AVLTree.get_balance`: height of the left child minus height of the
right child. -/
def get_balance : AVLNode → Int
  | .nil => 0
  | .node _ _ l r _ => (get_height l : Int) - (get_height r : Int)

/-- Builds an internal node with its height recomputed from the children,
as `update_height` does after an insertion or rotation. -/
def mkNodeH (key : String) (data : NodeInfo) (l r : AVLNode) : AVLNode :=
  .node key data l r (1 + max (get_height l) (get_height r))

/-- Key of a node; the source only reads `node.left.key` / `node.right.key`
when the child is known to exist, so the `nil` default is never exercised. -/
def keyOf : AVLNode → String
  | .nil => ""
  | .node k _ _ _ _ => k

/-- `AVLTree.rotate_right` on `z` (heights of `z` then `y` recomputed).  The
source only calls it when `z.left` exists; the fallback branch is
unreachable there. -/
def rotate_right : AVLNode → AVLNode
  | .node zk zd (.node yk yd yl yr _) zr _ => mkNodeH yk yd yl (mkNodeH zk zd yr zr)
  | t => t

/-- `AVLTree.rotate_left` on `z` (heights of `z` then `y` recomputed). -/
def rotate_left : AVLNode → AVLNode
  | .node zk zd zl (.node yk yd yl yr _) _ => mkNodeH yk yd (mkNodeH zk zd zl yl) yr
  | t => t

/-- The four rebalancing cases of `_insert_recursive`, applied to the node
whose height was just updated, dispatching on the inserted key. -/
def rebalance (t : AVLNode) (key : String) : AVLNode :=
  match t with
  | .nil => .nil
  | .node k d l r h =>
    let t' : AVLNode := .node k d l r h
    let bal := get_balance t'
    if 1 < bal ∧ key < keyOf l then rotate_right t'
    else if bal < -1 ∧ keyOf r < key then rotate_left t'
    else if 1 < bal ∧ keyOf l < key then rotate_right (.node k d (rotate_left l) r h)
    else if bal < -1 ∧ key < keyOf r then rotate_left (.node k d l (rotate_right r) h)
    else t'

/-- `AVLTree._insert_recursive`.  On an equal key the data is replaced and
the node returned unchanged (no height update, no rebalancing), exactly as
the early `return node` in the source. -/
def insert_recursive : AVLNode → String → NodeInfo → AVLNode
  | .nil, key, data => .node key data .nil .nil 1
  | .node k d l r h, key, data =>
    if key < k then rebalance (mkNodeH k d (insert_recursive l key data) r) key
    else if k < key then rebalance (mkNodeH k d l (insert_recursive r key data)) key
    else .node k data l r h

/-- The `AVLTree` wrapper: root and the `size` counter. -/
structure AVLTree where
  root : AVLNode
  size : Nat
deriving DecidableEq

/-- A fresh `AVLTree()`. -/
def AVLTree.empty : AVLTree := ⟨.nil, 0⟩

/-- `AVLTree.insert`: delegates to `_insert_recursive` and increments
`size` unconditionally (also when the key already existed). -/
def AVLTree.insert (t : AVLTree) (key : String) (data : NodeInfo) : AVLTree :=
  { root := insert_recursive t.root key data, size := t.size + 1 }

/-- `AVLTree._search_recursive`. -/
def search_recursive : AVLNode → String → Option NodeInfo
  | .nil, _ => none
  | .node k d l r _, key =>
    if k = key then some d
    else if key < k then search_recursive l key
    else search_recursive r key

/-- `AVLTree.search`. -/
def AVLTree.search (t : AVLTree) (key : String) : Option NodeInfo :=
  search_recursive t.root key

/-- `AVLTree._find_overloaded`: in-order collection of the entries whose
load ratio exceeds the threshold (the `load_ratio` field of the emitted
dicts is not read by any caller and is not modelled). -/
def find_overloaded (threshold : ℚ) : AVLNode → List (String × NodeInfo)
  | .nil => []
  | .node k d l r _ =>
    find_overloaded threshold l
      ++ (if threshold < d.current_load / d.capacity then [(k, d)] else [])
      ++ find_overloaded threshold r

/-- `AVLTree.get_overloaded_nodes`. -/
def AVLTree.get_overloaded_nodes (t : AVLTree) (threshold : ℚ) : List (String × NodeInfo) :=
  find_overloaded threshold t.root

/-- `AVLTree._inorder_recursive` / `inorder_traversal`. -/
def inorder : AVLNode → List (String × NodeInfo)
  | .nil => []
  | .node k d l r _ => inorder l ++ [(k, d)] ++ inorder r

/-- `AVLTree.inorder_traversal`. -/
def AVLTree.inorder_traversal (t : AVLTree) : List (String × NodeInfo) :=
  inorder t.root

/-! ## EnergyGraph (`src/backend/data_structures/graph.py`)

`nodes` is a dict from node id to a node-attribute dict, `edges` a
`defaultdict(list)` from node id to the adjacency list of
`(neighbor, weight, line_data)` triples. -/

/-- The node-attribute dict created by `add_node` / mutated by
`update_load`. -/
structure GNodeData where
  ntype : String
  capacity : ℚ
  current_load : ℚ
  efficiency : ℚ
  status : String
  voltage : ℚ
  connections : Nat
deriving DecidableEq

/-- The `line_data` dict created by `add_edge`. -/
structure LineData where
  distance : ℚ
  resistance : ℚ
  capacity : ℚ
  status : String
deriving DecidableEq

/-- The `EnergyGraph` class. -/
structure EnergyGraph where
  nodes : List (String × GNodeData)
  edges : List (String × List (String × ℚ × LineData))
  node_count : Nat
  edge_count : Nat
deriving DecidableEq

/-- A fresh `EnergyGraph()`. -/
def EnergyGraph.emptyGraph : EnergyGraph := ⟨[], [], 0, 0⟩

/-- The node-id keys of the graph, in dict insertion order. -/
def gkeys (g : EnergyGraph) : List String := g.nodes.map Prod.fst

/-- Adjacency list of a node (`self.edges[k]`); a missing key reads as `[]`
by `defaultdict` semantics. -/
def edgesOf (g : EnergyGraph) (k : String) : List (String × ℚ × LineData) :=
  (dictGet g.edges k).getD []

/-- `EnergyGraph.add_node` (no duplicate check in the source: an existing id
is overwritten and `node_count` still incremented). -/
def EnergyGraph.add_node (g : EnergyGraph) (node_id node_type : String)
    (capacity : ℚ) (efficiency : ℚ) : EnergyGraph :=
  { g with
    nodes := dictSet g.nodes node_id
      { ntype := node_type, capacity := capacity, current_load := 0,
        efficiency := efficiency, status := "active", voltage := 220,
        connections := 0 },
    node_count := g.node_count + 1 }

/-- Appends an entry to the adjacency list of `k` (`self.edges[k].append`). -/
def edgesAppend (edges : List (String × List (String × ℚ × LineData)))
    (k : String) (entry : String × ℚ × LineData) :
    List (String × List (String × ℚ × LineData)) :=
  dictSet edges k ((dictGet edges k).getD [] ++ [entry])

/-- Result of `add_edge`: the graph state after the call together with the
exception it raised, if any (`KeyError` when an endpoint id is missing from
`nodes`; the adjacency appends have already happened by then). -/
structure AddEdgeResult where
  graph : EnergyGraph
  error : Option String
deriving DecidableEq

/-- `EnergyGraph.add_edge`.  Mirrors the statement order of the source:
`weight = distance * resistance`; both adjacency appends happen first; the
`connections` update of `from_node` raises `KeyError` if that id is absent,
then the `connections` update of `to_node` likewise; only afterwards is
`edge_count` incremented.  No check for `u = v`, missing endpoints or
duplicate edges is performed before mutating. -/
def EnergyGraph.add_edge (g : EnergyGraph) (from_node to_node : String)
    (distance : ℚ) (resistance : ℚ) : AddEdgeResult :=
  let weight := distance * resistance
  let line_data : LineData :=
    { distance := distance, resistance := resistance, capacity := 1000, status := "active" }
  let edges1 := edgesAppend g.edges from_node (to_node, weight, line_data)
  let edges2 := edgesAppend edges1 to_node (from_node, weight, line_data)
  let g1 : EnergyGraph := { g with edges := edges2 }
  match dictGet g1.nodes from_node with
  | none => { graph := g1, error := some "KeyError" }
  | some nf =>
    let g2 : EnergyGraph :=
      { g1 with nodes := dictSet g1.nodes from_node { nf with connections := nf.connections + 1 } }
    match dictGet g2.nodes to_node with
    | none => { graph := g2, error := some "KeyError" }
    | some nt =>
      { graph :=
          { g2 with
            nodes := dictSet g2.nodes to_node { nt with connections := nt.connections + 1 },
            edge_count := g2.edge_count + 1 },
        error := none }

/-- `EnergyGraph.update_load`: sets `current_load` and recomputes the status
thresholds; a no-op when the id is absent. -/
def EnergyGraph.update_load (g : EnergyGraph) (node_id : String) (load : ℚ) : EnergyGraph :=
  match dictGet g.nodes node_id with
  | none => g
  | some nd =>
    let status :=
      if nd.capacity < load then "overloaded"
      else if nd.capacity * (9 / 10) < load then "warning"
      else "active"
    { g with nodes := dictSet g.nodes node_id { nd with current_load := load, status := status } }

/-! ## Dijkstra (`EnergyGraph.dijkstra`)

The `distances` dict maps every node key to a float that starts at
`float('inf')`; it is modelled as a total function `String → Option ℚ`
where `none` stands for infinity (off-key arguments also read as `none`;
the source would raise `KeyError` there, which is unreachable on graphs
whose adjacency only mentions existing nodes, as all theorems below
assume).  The priority queue is a `heapq` of `(distance, node)` tuples,
modelled as the multiset of its entries; `heappop` removes a least entry
under lexicographic comparison.  The `while` loop is given explicit fuel;
`dijkstraFuel` is proved sufficient below. -/

/-- Lexicographic comparison of `(distance, node)` heap tuples. -/
def pqLe (a b : ℚ × String) : Bool :=
  decide (a.1 < b.1) || (decide (a.1 = b.1) && decide (a.2 ≤ b.2))

/-- The comparison `d < distances[v]` against a possibly-infinite stored
distance. -/
def ltInf (d : ℚ) : Option ℚ → Bool
  | none => true
  | some x => decide (d < x)

/-- Mutable state of the Dijkstra loop. -/
structure DState where
  dist : String → Option ℚ
  prev : String → Option String
  pq : List (ℚ × String)
  visited : List String

/-- One relaxation step of the inner `for` loop of `dijkstra`: skips
non-active edges, otherwise compares `current_dist + weight` against the
stored distance and on strict improvement updates `distances`, `previous`
and pushes the new entry. -/
def relaxOne (u : String) (d : ℚ) (s : DState) (e : String × ℚ × LineData) : DState :=
  let (v, w, ld) := e
  if ld.status ≠ "active" then s
  else
    let nd := d + w
    if ltInf nd (s.dist v) then
      { s with
        dist := fun x => if x = v then some nd else s.dist x,
        prev := fun x => if x = v then some u else s.prev x,
        pq := s.pq ++ [(nd, v)] }
    else s

/-- The main `while pq:` loop of `dijkstra`.  Pops the least entry, skips
visited nodes, marks the popped node visited, breaks when it is the target
and otherwise relaxes all its outgoing edges. -/
def dloop (g : EnergyGraph) (end_ : String) : Nat → DState → DState
  | 0, s => s
  | fuel + 1, s =>
    match extractMin pqLe s.pq with
    | none => s
    | some ((d, u), rest) =>
      if u ∈ s.visited then dloop g end_ fuel { s with pq := rest }
      else
        let s1 : DState := { s with pq := rest, visited := s.visited ++ [u] }
        if u = end_ then s1
        else dloop g end_ fuel ((edgesOf g u).foldl (relaxOne u d) s1)

/-- Total number of adjacency entries over all node keys; bounds the number
of heap pushes the loop can perform. -/
def degTotal (g : EnergyGraph) : Nat :=
  ((gkeys g).map (fun k => (edgesOf g k).length)).sum

/-- Fuel for the Dijkstra loop: one iteration per possible heap entry. -/
def dijkstraFuel (g : EnergyGraph) : Nat := degTotal g + 2

/-- The path-reconstruction `while current:` walk along `previous`
pointers, newest first.  Node ids in this system are non-empty strings, so
Python truthiness coincides with being present (`None` ends the walk). -/
def walkPrev (prev : String → Option String) : Nat → Option String → List String
  | _, none => []
  | 0, some _ => []
  | fuel + 1, some v => v :: walkPrev prev fuel (prev v)

/-- `EnergyGraph.dijkstra`.  Returns `(path?, cost)` where the cost `none`
stands for `float('inf')`.  Mirrors the source: missing endpoints return
`(None, inf)`; after the loop the path is rebuilt from `previous` and
rejected if it does not start at `start`. -/
def EnergyGraph.dijkstra (g : EnergyGraph) (start end_ : String) :
    Option (List String) × Option ℚ :=
  if start ∈ gkeys g ∧ end_ ∈ gkeys g then
    let s0 : DState :=
      { dist := fun v => if v = start then some 0 else none,
        prev := fun _ => none,
        pq := [((0 : ℚ), start)],
        visited := [] }
    let f := dloop g end_ (dijkstraFuel g) s0
    let path := (walkPrev f.prev (g.nodes.length + 1) (some end_)).reverse
    if path.head? = some start then (some path, f.dist end_) else (none, none)
  else (none, none)

/-! ## EnergyRouter (`src/backend/algorithms/routing.py`)

The route cache is a dict keyed by the f-string
`f"{source}_{destination}_{algorithm}"`; it is modelled as the
`(source, destination, algorithm)` triple (the encoding is injective for
the ids used in this system).  `execution_time` is wall-clock time and is
not modelled.  The `astar` branch of `find_optimal_route` is not embedded:
every claim fixes `algorithm = 'dijkstra'`, and calls with any other
algorithm string are mapped to the error branch of the source (a
documented modelling gap for the string `'astar'` only, exercised by no
theorem below). -/

/-- The result dict of `find_optimal_route` (without `execution_time`).
`error` records the message of the exception captured by the `except`
branch, when any. -/
structure RouteResult where
  path : List String
  cost : Option ℚ
  algorithm : String
  hops : Nat
  found : Bool
  error : Option String
deriving DecidableEq

/-- The `EnergyRouter` state: result cache and history. -/
structure RouterState where
  routing_cache : List ((String × String × String) × RouteResult)
  route_history : List RouteResult
deriving DecidableEq

/-- A fresh `EnergyRouter` (empty cache and history). -/
def RouterState.emptyRouter : RouterState := ⟨[], []⟩

/-- `EnergyRouter.find_optimal_route`.  Checks the cache first; on a miss
runs the algorithm, converts an infinite cost to `None`, and builds the
result dict.  When no path was found, evaluating `len(path)` on `None`
raises `TypeError`, so the source returns its error dict (`path=[]`,
`cost=None`, `found=False`); only `found=true` results are cached and
appended to the history. -/
def find_optimal_route (router : RouterState) (g : EnergyGraph)
    (source destination algorithm : String) : RouteResult × RouterState :=
  let cache_key := (source, destination, algorithm)
  match dictGet router.routing_cache cache_key with
  | some r => (r, router)
  | none =>
    if algorithm = "dijkstra" then
      match g.dijkstra source destination with
      | (some path, c) =>
        let result : RouteResult :=
          { path := path, cost := c, algorithm := algorithm,
            hops := path.length - 1, found := decide (0 < path.length), error := none }
        if result.found then
          (result,
           { routing_cache := dictSet router.routing_cache cache_key result,
             route_history := router.route_history ++ [result] })
        else (result, router)
      | (none, _) =>
        ({ path := [], cost := none, algorithm := algorithm, hops := 0,
           found := false, error := some "TypeError" }, router)
    else
      ({ path := [], cost := none, algorithm := algorithm, hops := 0,
         found := false, error := some "ValueError" }, router)

/-- `EnergyRouter.clear_cache`. -/
def RouterState.clear_cache (router : RouterState) : RouterState :=
  { router with routing_cache := [] }

/-! ## LoadBalancer (`src/backend/algorithms/balancing.py`)

The balancer reads node data through `avl.search`, which in the source
returns the live data dict aliased by the tree; mutating it and
re-inserting leaves the same values the pure embedding computes by
re-searching the current tree.  `balancing_history` is an audit list no
claim mentions and is not modelled. -/

/-- A planned transfer dict `{'from': ..., 'to': ..., 'amount': ...}`
(`from` is reserved in Lean, hence the field names). -/
structure Transfer where
  tfrom : String
  tto : String
  amount : ℚ
deriving DecidableEq

/-- `LoadBalancer._apply_transfer` (also the body of
`EfficiencyOptimizer._apply_efficiency_transfer`, which is identical):
searches the endpoint data, adjusts `current_load`, re-inserts it and
mirrors the new load into the graph via `update_load`.  The source would
raise `TypeError` if a search returned `None`; its callers only build
transfers whose endpoints were found by `search` during planning, so the
fallthrough branches are unreachable from them and are modelled as
no-ops. -/
def apply_transfer (avl : AVLTree) (g : EnergyGraph) (tr : Transfer) :
    AVLTree × EnergyGraph :=
  match avl.search tr.tfrom with
  | none => (avl, g)
  | some sd =>
    let sd' := { sd with current_load := sd.current_load - tr.amount }
    let avl1 := avl.insert tr.tfrom sd'
    let g1 := g.update_load tr.tfrom sd'.current_load
    match avl1.search tr.tto with
    | none => (avl1, g1)
    | some dd =>
      let dd' := { dd with current_load := dd.current_load + tr.amount }
      (avl1.insert tr.tto dd', g1.update_load tr.tto dd'.current_load)

/-- `EfficiencyOptimizer._apply_efficiency_transfer`: textually identical to
`LoadBalancer._apply_transfer`. -/
def apply_efficiency_transfer (avl : AVLTree) (g : EnergyGraph) (tr : Transfer) :
    AVLTree × EnergyGraph :=
  apply_transfer avl g tr

/-- A candidate dict of `_redistribute_load`
(`{'id': ..., 'available': ..., 'efficiency': ...}`). -/
structure Candidate where
  id : String
  available : ℚ
  efficiency : ℚ
deriving DecidableEq

/-- The candidate scan of `_redistribute_load`: active edges whose neighbor
is in the index and has positive available capacity. -/
def availableNeighbors (avl : AVLTree) (g : EnergyGraph) (source_node : String) :
    List Candidate :=
  (edgesOf g source_node).filterMap (fun e =>
    let (nid, _, ld) := e
    if ld.status ≠ "active" then none
    else
      match avl.search nid with
      | none => none
      | some ndata =>
        let avail := ndata.capacity - ndata.current_load
        if 0 < avail then some ⟨nid, avail, ndata.efficiency⟩ else none)

/-- The greedy assignment loop of `_redistribute_load`: walks the sorted
candidates, breaking when the remaining load reaches zero, transferring
`min(remaining, available)` to each candidate.  Returns the planned
transfers and the remaining load. -/
def planTransfers (source_node : String) : ℚ → List Candidate → List Transfer × ℚ
  | remaining, [] => ([], remaining)
  | remaining, c :: cs =>
    if remaining ≤ 0 then ([], remaining)
    else
      let amount := min remaining c.available
      let (ts, rem) := planTransfers source_node (remaining - amount) cs
      (⟨source_node, c.id, amount⟩ :: ts, rem)

/-- `LoadBalancer._redistribute_load`: finds candidates, sorts them by
efficiency descending (Python `list.sort` is stable; `reverse=True` flips
the comparison, not the result), plans greedily, applies each transfer and
reports success when less than 10% of the requested load remains. -/
def redistribute_load (avl : AVLTree) (g : EnergyGraph) (source_node : String)
    (load_to_transfer : ℚ) : AVLTree × EnergyGraph × Bool :=
  let cands := availableNeighbors avl g source_node
  if cands = [] then (avl, g, false)
  else
    let sorted := cands.mergeSort (fun a b => decide (b.efficiency ≤ a.efficiency))
    let (transfers, remaining) := planTransfers source_node load_to_transfer sorted
    let (avl', g') := transfers.foldl (fun st tr => apply_transfer st.1 st.2 tr) (avl, g)
    (avl', g', decide (remaining < load_to_transfer * (1 / 10)))

/-- `LoadBalancer.balance_network`: for each node the index reports as
overloaded (utilization above 0.9), computes the excess over 80% of
capacity from the live data (re-searched, because the source aliases the
tree's dict) and redistributes it.  Returns the final state, the number of
balanced nodes and the number of overloaded nodes. -/
def balance_network (avl : AVLTree) (g : EnergyGraph) :
    AVLTree × EnergyGraph × Nat × Nat :=
  let overloaded := avl.get_overloaded_nodes (9 / 10)
  let final := overloaded.foldl
    (fun (st : AVLTree × EnergyGraph × Nat) ko =>
      let (a, gr, cnt) := st
      match a.search ko.1 with
      | none => (a, gr, cnt)
      | some ndata =>
        let excess := ndata.current_load - ndata.capacity * (8 / 10)
        if 0 < excess then
          let (a', g', ok) := redistribute_load a gr ko.1 excess
          (a', g', if ok then cnt + 1 else cnt)
        else (a, gr, cnt))
    (avl, g, 0)
  (final.1, final.2.1, final.2.2, overloaded.length)

/-! ## EfficiencyOptimizer (`src/backend/algorithms/efficiency.py`)

Only the load-moving part is embedded; the carbon-footprint and
renewable-suggestion reports are pure read-only functions no claim
mentions.  The per-candidate `efficiency_gain` is a reported metric that
does not influence the transfers and is not modelled. -/

/-- The neighbor scan of `_attract_load_to_efficient_node`: walks the
adjacency list accumulating planned transfers into the target, capped at
20% of each less-efficient neighbor's load and by the remaining headroom,
breaking once the target's available capacity is reached. -/
def planAttract (avl : AVLTree) (target_node : String) (teff availCap : ℚ) :
    List (String × ℚ × LineData) → ℚ → List Transfer × ℚ
  | [], total => ([], total)
  | e :: rest, total =>
    let (nid, _, ld) := e
    if ld.status ≠ "active" then planAttract avl target_node teff availCap rest total
    else
      match avl.search nid with
      | none => planAttract avl target_node teff availCap rest total
      | some ndata =>
        if ndata.efficiency < teff then
          let transferable := min (ndata.current_load * (2 / 10)) (availCap - total)
          if 0 < transferable then
            let total' := total + transferable
            if availCap ≤ total' then ([⟨nid, target_node, transferable⟩], total')
            else
              let (ts, tt) := planAttract avl target_node teff availCap rest total'
              (⟨nid, target_node, transferable⟩ :: ts, tt)
          else planAttract avl target_node teff availCap rest total
        else planAttract avl target_node teff availCap rest total

/-- `EfficiencyOptimizer._attract_load_to_efficient_node`: returns `none`
(no improvement) when the target has no headroom or no transfer was
planned, otherwise applies the planned transfers in order. -/
def attract_load (avl : AVLTree) (g : EnergyGraph) (target_node : String)
    (tdata : NodeInfo) : AVLTree × EnergyGraph × Bool :=
  let availCap := tdata.capacity - tdata.current_load
  if availCap ≤ 0 then (avl, g, false)
  else
    let (transfers, _) := planAttract avl target_node tdata.efficiency availCap
      (edgesOf g target_node) 0
    let (avl', g') := transfers.foldl
      (fun st tr => apply_efficiency_transfer st.1 st.2 tr) (avl, g)
    (avl', g', decide (transfers ≠ []))

/-- `EfficiencyOptimizer.optimize_network`: sorts the index snapshot by
efficiency descending, then for each sufficiently idle (utilization below
0.6) and efficient (above 0.85) candidate attracts load from its
less-efficient active neighbors.  Candidate data is re-read from the live
tree at each step (dict aliasing in the source).  Returns the final state
and the number of improvements. -/
def optimize_network (avl : AVLTree) (g : EnergyGraph) :
    AVLTree × EnergyGraph × Nat :=
  let sorted_nodes := (avl.inorder_traversal).mergeSort
    (fun a b => decide (b.2.efficiency ≤ a.2.efficiency))
  sorted_nodes.foldl
    (fun (st : AVLTree × EnergyGraph × Nat) ko =>
      let (a, gr, cnt) := st
      match a.search ko.1 with
      | none => (a, gr, cnt)
      | some data =>
        if data.current_load / data.capacity < 6 / 10 ∧ 85 / 100 < data.efficiency then
          let (a', g', improved) := attract_load a gr ko.1 data
          (a', g', if improved then cnt + 1 else cnt)
        else (a, gr, cnt))
    (avl, g, 0)

/-! ## Balance endpoint coalescing (`src/backend/app.py`, `balance_network`)

After the balancer runs, the handler drains the priority heap into a fresh
heap, dropping every `"overload"` event and counting them, then rebuilds
the FIFO queue keeping only non-`"overload"` events. -/

/-- The `while priority_heap.size() > 0` drain loop: pops each event,
counts `"overload"` ones and pushes the rest into the fresh heap in pop
order.  Fuel is the heap size at entry. -/
def coalesceLoop {α : Type} : Nat → PriorityHeap α → PriorityHeap α → Nat →
    PriorityHeap α × Nat
  | 0, _, acc, cleared => (acc, cleared)
  | fuel + 1, s, acc, cleared =>
    match extractMin heapLe s.heap with
    | none => (acc, cleared)
    | some (e, rest) =>
      if e.2.2.event_type = "overload" then
        coalesceLoop fuel { s with heap := rest } acc (cleared + 1)
      else
        coalesceLoop fuel { s with heap := rest }
          (acc.push e.2.2.event_type e.2.2.node_id e.2.2.data e.2.2.priority) cleared

/-- The heap-coalescing step of the endpoint: drain into a fresh
`PriorityHeap()` and return it with the cleared count. -/
def coalesce_heap {α : Type} (ph : PriorityHeap α) : PriorityHeap α × Nat :=
  coalesceLoop ph.heap.length ph PriorityHeap.empty 0

/-- The queue-coalescing step of the endpoint: snapshot the deque, clear
it, and re-enqueue every event that is not an `"overload"`. -/
def coalesce_queue {α : Type} (q : EventQueue α) : EventQueue α :=
  let old := q.queue
  let clearedQ : EventQueue α := { q with queue := [] }
  old.foldl (fun qq e => if e.event_type ≠ "overload" then qq.enqueue e else qq) clearedQ

/-- The in-memory effect of the `/api/balance` handler: run the balancer,
then coalesce both queues.  (Wall-clock benchmarking, the efficiency
report and the persistence counters are not modelled.)  Returns the new
index, graph, heap and queue together with the cleared-event count. -/
def balance_endpoint {α : Type} (avl : AVLTree) (g : EnergyGraph)
    (ph : PriorityHeap α) (q : EventQueue α) :
    AVLTree × EnergyGraph × PriorityHeap α × EventQueue α × Nat :=
  let b := balance_network avl g
  let hc := coalesce_heap ph
  (b.1, b.2.1, hc.1, coalesce_queue q, hc.2)

/-! ## Specification-side predicates -/

/-- There is a path from `start` to the given node along edges of the
adjacency structure whose status is `"active"`, of the given total weight.
The empty path reaches `start` itself at cost 0. -/
inductive Reaches (g : EnergyGraph) (start : String) : String → ℚ → Prop
  | refl : Reaches g start start 0
  | tail {u v : String} {w : ℚ} {ld : LineData} {c : ℚ} :
      Reaches g start u c → (v, w, ld) ∈ edgesOf g u → ld.status = "active" →
      Reaches g start v (c + w)

/-- Well-formedness of a graph dict pair: node keys are unique (dict
semantics) and every adjacency entry of a node points at an existing node
(true of every graph built by completed `add_node`/`add_edge` calls). -/
structure GraphWF (g : EnergyGraph) : Prop where
  nodupKeys : (gkeys g).Nodup
  closed : ∀ u ∈ gkeys g, ∀ e ∈ edgesOf g u, e.1 ∈ gkeys g

/-- All active adjacency entries carry a non-negative weight. -/
def NonnegActive (g : EnergyGraph) : Prop :=
  ∀ u ∈ gkeys g, ∀ e ∈ edgesOf g u, (e.2.2).status = "active" → 0 ≤ e.2.1

/-- All keys of an AVL subtree satisfy a predicate. -/
def AllKeys (p : String → Prop) : AVLNode → Prop
  | .nil => True
  | .node k _ l r _ => p k ∧ AllKeys p l ∧ AllKeys p r

/-- The binary-search-tree ordering invariant of the AVL tree. -/
def Ordered : AVLNode → Prop
  | .nil => True
  | .node k _ l r _ => AllKeys (· < k) l ∧ AllKeys (k < ·) r ∧ Ordered l ∧ Ordered r

/-- The entry the index stores at `k`, if any, respects its capacity.
A per-node predicate: it says nothing about the other nodes, which may
well exceed their capacity. -/
def capacityAt (t : AVLTree) (k : String) : Prop :=
  ∀ info, t.search k = some info → info.current_load ≤ info.capacity

/-- Total amount of a list of planned transfers. -/
def sumAmounts : List Transfer → ℚ
  | [] => 0
  | tr :: ts => tr.amount + sumAmounts ts

/-- Sum of the adjacency-list lengths of the not-yet-visited node keys:
an upper bound on the pushes the Dijkstra loop can still perform. -/
def unvisitedDeg (g : EnergyGraph) (s : DState) : Nat :=
  ((gkeys g).map (fun k => if k ∈ s.visited then 0 else (edgesOf g k).length)).sum

/-- Termination measure of the Dijkstra loop: pending heap entries plus
possible future pushes.  Strictly decreases at every iteration. -/
def dmeasure (g : EnergyGraph) (s : DState) : Nat :=
  s.pq.length + unvisitedDeg g s

/-- The loop invariant of `dloop`: finite distances are witnessed by
active paths, the heap covers every finite unvisited distance, visited
distances are optimal and fully relaxed and never exceed any pending heap
entry, and the `previous` pointers walk back through strictly earlier
visited nodes to `start`. -/
structure DInv (g : EnergyGraph) (start : String) (s : DState) : Prop where
  dsound : ∀ v c, s.dist v = some c → Reaches g start v c
  pq_dist : ∀ e ∈ s.pq, ∃ dv, s.dist e.2 = some dv ∧ dv ≤ e.1
  pq_keys : ∀ e ∈ s.pq, e.2 ∈ gkeys g
  dist_start : s.dist start = some 0
  vis_keys : ∀ v ∈ s.visited, v ∈ gkeys g
  vis_nodup : s.visited.Nodup
  vis_min : ∀ v ∈ s.visited, ∀ c, Reaches g start v c → ∃ dv, s.dist v = some dv ∧ dv ≤ c
  relaxed : ∀ u ∈ s.visited, ∀ e ∈ edgesOf g u, (e.2.2).status = "active" →
    ∃ du dv, s.dist u = some du ∧ s.dist e.1 = some dv ∧ dv ≤ du + e.2.1
  frontier : ∀ v, v ∉ s.visited → ∀ dv, s.dist v = some dv → (dv, v) ∈ s.pq
  vis_le_pq : ∀ v ∈ s.visited, ∀ e ∈ s.pq, ∃ dv, s.dist v = some dv ∧ dv ≤ e.1
  prev_vis : ∀ v u, s.prev v = some u → u ∈ s.visited
  prev_dist : ∀ v u, s.prev v = some u → ∃ dv, s.dist v = some dv
  prev_start : s.prev start = none
  pq_or_prev : ∀ e ∈ s.pq, e.2 = start ∨ s.prev e.2 ≠ none
  vis_or_prev : ∀ v ∈ s.visited, v = start ∨ s.prev v ≠ none
  prev_idx : ∀ v u, s.prev v = some u → v ∈ s.visited →
    List.indexOf u s.visited < List.indexOf v s.visited

/-- What the Dijkstra loop guarantees at its final state: sound and
optimal distances at the target, the target visited whenever reachable,
and `previous` pointers that rebuild a path ending at `start`. -/
structure DFinal (g : EnergyGraph) (start end_ : String) (s : DState) : Prop where
  dsound : ∀ v c, s.dist v = some c → Reaches g start v c
  dist_start : s.dist start = some 0
  opt_end : ∀ c, Reaches g start end_ c → ∃ de, s.dist end_ = some de ∧ de ≤ c
  end_vis : (∃ c, Reaches g start end_ c) → end_ ∈ s.visited
  vis_keys : ∀ v ∈ s.visited, v ∈ gkeys g
  vis_nodup : s.visited.Nodup
  prev_vis : ∀ v u, s.prev v = some u → u ∈ s.visited
  prev_dist : ∀ v u, s.prev v = some u → ∃ dv, s.dist v = some dv
  vis_or_prev : ∀ v ∈ s.visited, v = start ∨ s.prev v ≠ none
  prev_idx : ∀ v u, s.prev v = some u → v ∈ s.visited →
    List.indexOf u s.visited < List.indexOf v s.visited

/-- The invariant maintained while relaxing the edges of the freshly
visited node `u`, popped at distance `d` (which the heap discipline forces
to equal `distances[u]`): `DInv` with `u`'s own edges possibly pending,
plus the pop-minimality facts the relaxation steps rely on. -/
structure RInv (g : EnergyGraph) (start u : String) (d : ℚ) (s : DState) : Prop where
  dsound : ∀ v c, s.dist v = some c → Reaches g start v c
  pq_dist : ∀ e ∈ s.pq, ∃ dv, s.dist e.2 = some dv ∧ dv ≤ e.1
  pq_keys : ∀ e ∈ s.pq, e.2 ∈ gkeys g
  dist_start : s.dist start = some 0
  vis_keys : ∀ v ∈ s.visited, v ∈ gkeys g
  vis_nodup : s.visited.Nodup
  vis_min : ∀ v ∈ s.visited, ∀ c, Reaches g start v c → ∃ dv, s.dist v = some dv ∧ dv ≤ c
  relaxedO : ∀ x ∈ s.visited, x ≠ u → ∀ e ∈ edgesOf g x, (e.2.2).status = "active" →
    ∃ du dv, s.dist x = some du ∧ s.dist e.1 = some dv ∧ dv ≤ du + e.2.1
  frontier : ∀ v, v ∉ s.visited → ∀ dv, s.dist v = some dv → (dv, v) ∈ s.pq
  vis_le_pq : ∀ v ∈ s.visited, ∀ e ∈ s.pq, ∃ dv, s.dist v = some dv ∧ dv ≤ e.1
  prev_vis : ∀ v u', s.prev v = some u' → u' ∈ s.visited
  prev_dist : ∀ v u', s.prev v = some u' → ∃ dv, s.dist v = some dv
  prev_start : s.prev start = none
  pq_or_prev : ∀ e ∈ s.pq, e.2 = start ∨ s.prev e.2 ≠ none
  vis_or_prev : ∀ v ∈ s.visited, v = start ∨ s.prev v ≠ none
  prev_idx : ∀ v u', s.prev v = some u' → v ∈ s.visited →
    List.indexOf u' s.visited < List.indexOf v s.visited
  u_vis : u ∈ s.visited
  u_keys : u ∈ gkeys g
  dist_u : s.dist u = some d
  hvd : ∀ x ∈ s.visited, ∃ dx, s.dist x = some dx ∧ dx ≤ d

/-- Well-formedness of a reachable `PriorityHeap` state: every entry's
event records the entry's priority, counters are below the allocator and
pairwise distinct. -/
structure HeapWF {α : Type} (s : PriorityHeap α) : Prop where
  entries : ∀ e ∈ s.heap, (e.2.2).priority = e.1 ∧ e.2.1 < s.counter
  counters : (s.heap.map (fun e => e.2.1)).Nodup

/-! ## Concrete states used by counterexamples and witnesses -/

/-- The scenario graph of the spec's trivial-route test: nodes `A, B, C`,
edges `A-B` and `B-C` both with distance 1 and resistance 0. -/
def gABC : EnergyGraph :=
  (((((EnergyGraph.emptyGraph.add_node "A" "substation" 100 1).add_node "B" "transformer" 100 1).add_node
      "C" "consumer" 100 1).add_edge "A" "B" 1 0).graph.add_edge "B" "C" 1 0).graph

/-- Nodes `A, B, C` with edges `A-B` and `B-C`, distance 1, resistance 1
(so each edge has weight 1). -/
def gLine : EnergyGraph :=
  (((((EnergyGraph.emptyGraph.add_node "A" "substation" 100 1).add_node "B" "transformer" 100 1).add_node
      "C" "consumer" 100 1).add_edge "A" "B" 1 1).graph.add_edge "B" "C" 1 1).graph

/-- First route query on `gLine` (fresh router): finds `A-B-C` at cost 2
and caches it. -/
def routeFirst : RouteResult × RouterState :=
  find_optimal_route RouterState.emptyRouter gLine "A" "C" "dijkstra"

/-- Topology mutation after the first query: a direct edge `A-C` with
weight `1 * (1/2) = 1/2`, strictly cheaper than the cached route. -/
def gLineMut : EnergyGraph := (gLine.add_edge "A" "C" 1 (1 / 2)).graph

/-- Second route query, after the mutation, through the same router state. -/
def routeSecond : RouteResult × RouterState :=
  find_optimal_route routeFirst.2 gLineMut "A" "C" "dijkstra"

/-- A graph holding only the node `A`. -/
def gOnlyA : EnergyGraph := EnergyGraph.emptyGraph.add_node "A" "consumer" 100 (85 / 100)

/-- Sample AVL payload used by the upsert-twice scenario. -/
def dK : NodeInfo := ⟨100, 50, 9 / 10, "consumer"⟩

/-- One upsert of key `"K"`. -/
def tK1 : AVLTree := AVLTree.empty.insert "K" dK

/-- Two upserts of key `"K"` with the same data. -/
def tK2 : AVLTree := tK1.insert "K" dK

/-- A full one-slot event queue holding one overload event. -/
def qFull : EventQueue Nat := ⟨[⟨"overload", "N1", 0, 2⟩], 1, 0, 0⟩

/-- A later arrival for the full-queue scenario. -/
def eNew : QEvent Nat := ⟨"failure", "N2", 1, 1⟩

/-- A heap holding two severity-2 events pushed in order `N1`, `N2`. -/
def hTwo : PriorityHeap Nat :=
  (PriorityHeap.empty.push "overload" "N1" 0 2).push "overload" "N2" 1 2

/-- Queue with one overload and one failure event, for the coalescing
witness. -/
def qMixed : EventQueue Nat :=
  ⟨[⟨"overload", "N1", 0, 2⟩, ⟨"failure", "N2", 1, 1⟩], 10, 0, 0⟩

/-- Index for the transfer witness: two nodes `A` and `B`. -/
def avlAB : AVLTree :=
  (AVLTree.empty.insert "A" ⟨100, 50, 9 / 10, "consumer"⟩).insert "B" ⟨100, 20, 8 / 10, "consumer"⟩

/-- Graph for the transfer witness: nodes `A` and `B` with an edge. -/
def gAB : EnergyGraph :=
  (((EnergyGraph.emptyGraph.add_node "A" "consumer" 100 (9 / 10)).add_node "B" "consumer" 100
      (8 / 10)).add_edge "A" "B" 1 (1 / 10)).graph

/-- A transfer of 5 units from `A` to `B`. -/
def trAB : Transfer := ⟨"A", "B", 5⟩

/-- Index for the balancing witness: `X` over capacity at 120/100 (which
the spec permits), `Y` idle at 10/100. -/
def avlXY : AVLTree :=
  (AVLTree.empty.insert "X" ⟨100, 120, 9 / 10, "consumer"⟩).insert "Y" ⟨100, 10, 9 / 10, "consumer"⟩

/-- Graph for the balancing witness: nodes `X`, `Y` and an active edge. -/
def gXY : EnergyGraph :=
  (((EnergyGraph.emptyGraph.add_node "X" "consumer" 100 (9 / 10)).add_node "Y" "consumer" 100
      (9 / 10)).add_edge "X" "Y" 1 (1 / 10)).graph

/-- Index for the duplicate-edge balancing scenario: `S` at full load,
`X` at 9 of 10. -/
def avlSX : AVLTree :=
  (AVLTree.empty.insert "S" ⟨10, 10, 1 / 2, "plant"⟩).insert "X" ⟨10, 9, 1 / 2, "consumer"⟩

/-- Graph for the duplicate-edge balancing scenario: the edge `S-X` is
added twice (which `add_edge` permits), so each adjacency list mentions the
other node twice. -/
def gSX : EnergyGraph :=
  ((((EnergyGraph.emptyGraph.add_node "S" "plant" 10 (1 / 2)).add_node "X" "consumer" 10
      (1 / 2)).add_edge "S" "X" 1 1).graph.add_edge "S" "X" 1 1).graph

/-! ## Library lemmas about the dict and heap models -/

theorem dictGet_dictSet_self {κ β : Type} [DecidableEq κ] (l : List (κ × β)) (k : κ) (v : β) :
    dictGet (dictSet l k v) k = some v := by
  induction l with
  | nil => simp [dictGet, dictSet]
  | cons x rest ih =>
    by_cases hx : x.1 = k
    · simp [dictSet, hx, dictGet]
    · simpa [dictSet, hx, dictGet] using ih

theorem dictGet_dictSet_ne {κ β : Type} [DecidableEq κ] (l : List (κ × β)) {k k' : κ} (v : β)
    (h : k' ≠ k) : dictGet (dictSet l k v) k' = dictGet l k' := by
  induction l with
  | nil => simp [dictGet, dictSet, Ne.symm h]
  | cons x rest ih =>
    by_cases hx : x.1 = k
    · have hx' : x.1 ≠ k' := by rw [hx]; exact Ne.symm h
      simp [dictSet, hx, dictGet, Ne.symm h, hx']
    · by_cases hx' : x.1 = k'
      · simp [dictSet, hx, dictGet, hx', h]
      · simp [dictSet, hx, dictGet, hx', ih]

theorem extractMin_eq_none_iff {β : Type} (le : β → β → Bool) (l : List β) :
    extractMin le l = none ↔ l = [] := by
  cases l with
  | nil => simp [extractMin]
  | cons x xs =>
    simp only [extractMin]
    cases extractMin le xs with
    | none => simp
    | some p => cases p with | mk m rest => by_cases h : le x m <;> simp [h]

theorem extractMin_perm {β : Type} (le : β → β → Bool) :
    ∀ {l : List β} {m : β} {rest : List β},
      extractMin le l = some (m, rest) → (m :: rest).Perm l := by
  intro l
  induction l with
  | nil => intro m rest h; simp [extractMin] at h
  | cons x xs ih =>
    intro m rest h
    rcases hxs : extractMin le xs with _ | ⟨m', rest'⟩ <;> simp only [extractMin, hxs] at h
    · simp only [Option.some.injEq, Prod.mk.injEq] at h
      obtain ⟨rfl, rfl⟩ := h
      have hnil : xs = [] := (extractMin_eq_none_iff le xs).mp hxs
      subst hnil
      exact List.Perm.refl _
    · split at h
      · simp only [Option.some.injEq, Prod.mk.injEq] at h
        obtain ⟨rfl, rfl⟩ := h
        exact List.Perm.refl _
      · simp only [Option.some.injEq, Prod.mk.injEq] at h
        obtain ⟨rfl, rfl⟩ := h
        exact (List.Perm.swap x m' rest').trans ((ih hxs).cons x)

theorem extractMin_mem {β : Type} (le : β → β → Bool) {l : List β} {m : β} {rest : List β}
    (h : extractMin le l = some (m, rest)) : m ∈ l :=
  (extractMin_perm le h).mem_iff.mp (List.mem_cons_self m rest)

theorem extractMin_length {β : Type} (le : β → β → Bool) {l : List β} {m : β} {rest : List β}
    (h : extractMin le l = some (m, rest)) : rest.length + 1 = l.length := by
  have := (extractMin_perm le h).length_eq
  simpa using this

theorem extractMin_le {β : Type} (le : β → β → Bool)
    (htot : ∀ a b : β, le a b || le b a)
    (htr : ∀ a b c : β, le a b = true → le b c = true → le a c = true) :
    ∀ {l : List β} {m : β} {rest : List β},
      extractMin le l = some (m, rest) → ∀ x ∈ l, le m x = true := by
  have lerefl : ∀ a : β, le a a = true := by
    intro a
    have := htot a a
    simpa using this
  intro l
  induction l with
  | nil => intro m rest h; simp [extractMin] at h
  | cons x xs ih =>
    intro m rest h y hy
    rcases hxs : extractMin le xs with _ | ⟨m', rest'⟩ <;> simp only [extractMin, hxs] at h
    · simp only [Option.some.injEq, Prod.mk.injEq] at h
      obtain ⟨rfl, rfl⟩ := h
      have hnil : xs = [] := (extractMin_eq_none_iff le xs).mp hxs
      subst hnil
      rcases List.mem_singleton.mp hy with rfl
      exact lerefl y
    · split at h
      · rename_i hle
        simp only [Option.some.injEq, Prod.mk.injEq] at h
        obtain ⟨rfl, rfl⟩ := h
        rcases List.mem_cons.mp hy with rfl | hy'
        · exact lerefl y
        · exact htr x m' y hle (ih hxs y hy')
      · rename_i hle
        simp only [Option.some.injEq, Prod.mk.injEq] at h
        obtain ⟨rfl, rfl⟩ := h
        rcases List.mem_cons.mp hy with rfl | hy'
        · have := htot y m'
          simp only [Bool.or_eq_true] at this
          rcases this with h1 | h1
          · exact absurd h1 hle
          · exact h1
        · exact ih hxs y hy'

/-! ## Claim C7: EventQueue overflow policy -/

/-- C7 counterexample: on a full one-slot queue, `enqueue` does not leave
the contents unchanged — the old event is evicted and the new arrival is
kept (deque `maxlen` semantics discard from the opposite end), while
`dropped` is incremented.  The claim's tail-drop reading (new arrival
discarded, contents unchanged) is therefore false on the code. -/
theorem eventqueue_tail_drop_cex :
    (qFull.enqueue eNew).queue = [eNew] ∧ (qFull.enqueue eNew).dropped = 1 ∧
    (qFull.enqueue eNew).queue ≠ qFull.queue := by
  refine ⟨?_, ?_, ?_⟩ <;> simp [qFull, eNew, EventQueue.enqueue, dequeAppend]

/-- C7 amended: for every full `EventQueue` (queue length equal to the
positive bound), `Enqueue(e)` increments `dropped` and appends `e` while
evicting the oldest queued event (head-drop): afterwards the queue holds
the old contents minus their head, plus `e` at the tail; `processed` is
unchanged. -/
theorem eventqueue_enqueue_full_evicts_oldest {α : Type} (q : EventQueue α) (e : QEvent α)
    (hfull : q.queue.length = q.maxlen) (hpos : 1 ≤ q.maxlen) :
    (q.enqueue e).queue = q.queue.drop 1 ++ [e] ∧
    (q.enqueue e).dropped = q.dropped + 1 ∧
    (q.enqueue e).processed = q.processed := by
  have hlen : ¬ q.queue.length < q.maxlen := by omega
  have hidx : q.queue.length + 1 - q.maxlen = 1 := by omega
  unfold EventQueue.enqueue dequeAppend
  rw [if_pos hfull, if_neg hlen, hidx]
  refine ⟨?_, rfl, rfl⟩
  cases hq : q.queue with
  | nil =>
    rw [hq] at hfull
    simp at hfull
    omega
  | cons z rest => simp

/-- C7 witness: the amended statement evaluated on the concrete full
one-slot queue. -/
theorem eventqueue_enqueue_full_evicts_oldest_witness :
    (qFull.enqueue eNew).queue = qFull.queue.drop 1 ++ [eNew] ∧
    (qFull.enqueue eNew).dropped = qFull.dropped + 1 ∧
    (qFull.enqueue eNew).processed = qFull.processed :=
  eventqueue_enqueue_full_evicts_oldest qFull eNew (by simp [qFull]) (by simp [qFull])

/-! ## Claim C9: AVL upsert-twice round trip -/

/-- C9: evaluating the code at the failing input.  After two identical
upserts of the key `"K"`, `Get` does return the stored data, but the
reported `size` is 2 after the second upsert versus 1 after the first:
`AVLTree.insert` increments `size` unconditionally, also on the replace
path, contradicting the claim (and the repository's own test
`test_update_existing_key`, which asserts `size == 1`). -/
theorem avl_upsert_twice_size_bug :
    tK2.search "K" = some dK ∧ tK2.size = 2 ∧ tK1.size = 1 := by
  refine ⟨?_, rfl, rfl⟩
  simp [tK2, tK1, AVLTree.insert, AVLTree.search, AVLTree.empty, insert_recursive,
    search_recursive]

/-! ## Claim C8: AddEdge validation and atomicity -/

theorem dictGetD_edgesAppend_self (E : List (String × List (String × ℚ × LineData)))
    (k : String) (e : String × ℚ × LineData) :
    (dictGet (edgesAppend E k e) k).getD [] = (dictGet E k).getD [] ++ [e] := by
  unfold edgesAppend
  rw [dictGet_dictSet_self]
  rfl

theorem dictGet_edgesAppend_ne (E : List (String × List (String × ℚ × LineData)))
    {k k' : String} (e : String × ℚ × LineData) (h : k' ≠ k) :
    dictGet (edgesAppend E k e) k' = dictGet E k' := by
  unfold edgesAppend
  rw [dictGet_dictSet_ne _ _ h]

/-- The adjacency lists `add_edge` leaves behind, in every branch: both
appends happen before any validation can fail. -/
theorem add_edge_edges_eq (g : EnergyGraph) (u v : String) (d r : ℚ) :
    (g.add_edge u v d r).graph.edges =
      edgesAppend (edgesAppend g.edges u (v, d * r, ⟨d, r, 1000, "active"⟩)) v
        (u, d * r, ⟨d, r, 1000, "active"⟩) := by
  unfold EnergyGraph.add_edge
  dsimp only
  rcases hu : dictGet g.nodes u with _ | nu
  · simp only [hu]
  · simp only [hu]
    rcases hv : dictGet (dictSet g.nodes u { nu with connections := nu.connections + 1 }) v
      with _ | nv
    · simp only [hv]
    · simp only [hv]

/-- C8 counterexample: on a graph holding only the node `A`,
`AddEdge(A, A, 1, 0.1)` succeeds (no failure is raised), although the
claim says it must fail when `u = v`; and `AddEdge(A, B, 1, 0.1)` with `B`
missing raises `KeyError` only after the adjacency list of `A` has already
been extended, so the failed mutation is not atomic. -/
theorem add_edge_cex :
    (gOnlyA.add_edge "A" "A" 1 (1 / 10)).error = none ∧
    edgesOf (gOnlyA.add_edge "A" "A" 1 (1 / 10)).graph "A" ≠ edgesOf gOnlyA "A" ∧
    (gOnlyA.add_edge "A" "B" 1 (1 / 10)).error = some "KeyError" ∧
    edgesOf (gOnlyA.add_edge "A" "B" 1 (1 / 10)).graph "A" ≠ edgesOf gOnlyA "A" := by
  refine ⟨?_, ?_, ?_, ?_⟩ <;>
    simp [gOnlyA, EnergyGraph.add_edge, EnergyGraph.emptyGraph, EnergyGraph.add_node,
      edgesAppend, dictSet, dictGet, edgesOf]

/-- C8 amended: `add_edge` performs no validation.  It succeeds exactly
when both endpoints exist in `nodes` (also when `u = v` or the edge
already exists, which the claim said must fail), and in every case — also
the failing ones — it has already appended the `(neighbor, weight,
line_data)` entries to the adjacency lists of both endpoints, so a failed
call is not atomic. -/
theorem add_edge_no_validation (g : EnergyGraph) (u v : String) (d r : ℚ) :
    ((g.add_edge u v d r).error = none ↔
      (dictGet g.nodes u).isSome ∧ (dictGet g.nodes v).isSome) ∧
    (u ≠ v →
      edgesOf (g.add_edge u v d r).graph u = edgesOf g u ++ [(v, d * r, ⟨d, r, 1000, "active"⟩)] ∧
      edgesOf (g.add_edge u v d r).graph v = edgesOf g v ++ [(u, d * r, ⟨d, r, 1000, "active"⟩)]) ∧
    (u = v →
      edgesOf (g.add_edge u v d r).graph u =
        edgesOf g u ++ [(v, d * r, ⟨d, r, 1000, "active"⟩), (u, d * r, ⟨d, r, 1000, "active"⟩)]) := by
  refine ⟨?_, ?_, ?_⟩
  · unfold EnergyGraph.add_edge
    dsimp only
    rcases hu : dictGet g.nodes u with _ | nu
    · simp [hu]
    · simp only [hu]
      by_cases huv : v = u
      · subst huv
        rw [dictGet_dictSet_self]
        simp [hu]
      · rw [dictGet_dictSet_ne _ _ huv]
        rcases hv : dictGet g.nodes v with _ | nv
        · simp [hu, hv]
        · simp [hu, hv]
  · intro huv
    constructor
    · show (dictGet (g.add_edge u v d r).graph.edges u).getD [] = _
      rw [add_edge_edges_eq, dictGet_edgesAppend_ne _ _ huv, ]
      exact dictGetD_edgesAppend_self _ _ _
    · show (dictGet (g.add_edge u v d r).graph.edges v).getD [] = _
      rw [add_edge_edges_eq]
      rw [show (dictGet (edgesAppend (edgesAppend g.edges u (v, d * r, ⟨d, r, 1000, "active"⟩)) v
        (u, d * r, ⟨d, r, 1000, "active"⟩)) v).getD [] = _ from dictGetD_edgesAppend_self _ _ _]
      rw [dictGet_edgesAppend_ne _ _ (Ne.symm huv)]
      rfl
  · intro huv
    subst huv
    show (dictGet (g.add_edge u u d r).graph.edges u).getD [] = _
    rw [add_edge_edges_eq]
    rw [show (dictGet (edgesAppend (edgesAppend g.edges u (u, d * r, ⟨d, r, 1000, "active"⟩)) u
      (u, d * r, ⟨d, r, 1000, "active"⟩)) u).getD [] = _ from dictGetD_edgesAppend_self _ _ _]
    rw [show (dictGet (edgesAppend g.edges u (u, d * r, ⟨d, r, 1000, "active"⟩)) u).getD [] = _ from
      dictGetD_edgesAppend_self _ _ _]
    simp [edgesOf]

/-- C8 witness: the amended statement evaluated on the single-node graph,
for a present endpoint `A` and a missing endpoint `B`. -/
theorem add_edge_no_validation_witness :
    edgesOf (gOnlyA.add_edge "A" "B" 1 (1 / 10)).graph "A" =
      edgesOf gOnlyA "A" ++ [("B", 1 * (1 / 10), ⟨1, 1 / 10, 1000, "active"⟩)] ∧
    edgesOf (gOnlyA.add_edge "A" "B" 1 (1 / 10)).graph "B" =
      edgesOf gOnlyA "B" ++ [("A", 1 * (1 / 10), ⟨1, 1 / 10, 1000, "active"⟩)] :=
  (add_edge_no_validation gOnlyA "A" "B" 1 (1 / 10)).2.1 (by simp)

/-! ## Claim C6: PriorityHeap stability -/

theorem heapLe_total {α : Type} (a b : Nat × Nat × PEvent α) : heapLe a b || heapLe b a := by
  simp only [heapLe, Bool.or_eq_true, Bool.and_eq_true, decide_eq_true_eq]
  omega

theorem heapLe_trans {α : Type} (a b c : Nat × Nat × PEvent α)
    (h1 : heapLe a b = true) (h2 : heapLe b c = true) : heapLe a c = true := by
  simp only [heapLe, Bool.or_eq_true, Bool.and_eq_true, decide_eq_true_eq] at h1 h2 ⊢
  omega

/-- Every state reachable through the `PriorityHeap` interface is
well-formed: entry events record the entry priority, and the insertion
counters are pairwise distinct and below the allocator. -/
theorem heapReachable_wf {α : Type} {s : PriorityHeap α} (hr : HeapReachable s) : HeapWF s := by
  induction hr with
  | empty => exact ⟨by simp [PriorityHeap.empty], by simp [PriorityHeap.empty]⟩
  | push et nid d p hr ih =>
    rename_i s
    constructor
    · intro e he
      rcases List.mem_append.mp he with he | he
      · rcases ih.entries e he with ⟨h1, h2⟩
        refine ⟨h1, ?_⟩
        show e.2.1 < s.counter + 1
        omega
      · rcases List.mem_singleton.mp he with rfl
        exact ⟨rfl, Nat.lt_succ_self _⟩
    · show ((s.heap ++ [(p, s.counter, (⟨p, et, nid, d⟩ : PEvent α))]).map (fun e => e.2.1)).Nodup
      rw [List.map_append]
      refine List.Nodup.append ih.counters (by simp) ?_
      intro c hc hc'
      simp only [List.map_cons, List.map_nil, List.mem_singleton] at hc'
      subst hc'
      rcases List.mem_map.mp hc with ⟨e, he, hce⟩
      have := (ih.entries e he).2
      omega
  | pop hr ih =>
    rename_i s
    rcases hx : extractMin heapLe s.heap with _ | ⟨m, rest⟩
    · simpa [PriorityHeap.pop, hx] using ih
    · have hperm := extractMin_perm heapLe hx
      have hmr : ((m :: rest).map (fun e => e.2.1)).Nodup :=
        ((hperm.map (fun e => e.2.1)).nodup_iff).mpr ih.counters
      constructor
      · intro e he
        simp only [PriorityHeap.pop, hx] at he ⊢
        exact ih.entries e (hperm.mem_iff.mp (List.mem_cons_of_mem m he))
      · simp only [PriorityHeap.pop, hx]
        exact (List.nodup_cons.mp hmr).2

/-- C6: on every reachable nonempty heap state, `Pop` removes and returns
an event whose severity is minimal among all pending entries, and among
entries of equal severity the one with the least insertion counter, i.e.
the earliest pushed; moreover `Push` stores the monotonically increased
counter, so entries pushed earlier always carry strictly smaller counters.
Together these give stable FIFO tie-breaking: of two pending events with
equal severity the earlier-pushed one is popped first. -/
theorem priority_heap_pop_stable {α : Type} (s : PriorityHeap α)
    (hr : HeapReachable s) (hne : s.heap ≠ []) :
    ∃ c e rest, extractMin heapLe s.heap = some ((e.priority, c, e), rest) ∧
      s.pop = (some e, { s with heap := rest }) ∧
      (e.priority, c, e) ∈ s.heap ∧
      (∀ x ∈ s.heap, e.priority ≤ x.1 ∧ (x.1 = e.priority → c ≤ x.2.1)) ∧
      (∀ et nid d p,
        (s.push et nid d p).heap = s.heap ++ [(p, s.counter, ⟨p, et, nid, d⟩)]) ∧
      (∀ x ∈ s.heap, x.2.1 < s.counter) := by
  have hwf := heapReachable_wf hr
  rcases hx : extractMin heapLe s.heap with _ | ⟨m, rest⟩
  · exact absurd ((extractMin_eq_none_iff heapLe s.heap).mp hx) hne
  · obtain ⟨p, c, ev⟩ := m
    have hmem : (p, c, ev) ∈ s.heap := extractMin_mem heapLe hx
    have hpr : ev.priority = p := (hwf.entries _ hmem).1
    subst hpr
    refine ⟨c, ev, rest, rfl, ?_, hmem, ?_, ?_, ?_⟩
    · simp [PriorityHeap.pop, hx]
    · intro x hxmem
      have hle := extractMin_le heapLe heapLe_total heapLe_trans hx x hxmem
      simp only [heapLe, Bool.or_eq_true, Bool.and_eq_true, decide_eq_true_eq] at hle
      constructor
      · omega
      · intro hxp
        omega
    · intro et nid d p
      rfl
    · intro x hxmem
      exact (hwf.entries x hxmem).2

/-- C6 witness: the stability statement evaluated on the concrete heap
holding two severity-2 events pushed in the order `N1`, `N2`. -/
theorem priority_heap_pop_stable_witness :
    ∃ c e rest, extractMin heapLe hTwo.heap = some ((e.priority, c, e), rest) ∧
      hTwo.pop = (some e, { hTwo with heap := rest }) ∧
      (e.priority, c, e) ∈ hTwo.heap ∧
      (∀ x ∈ hTwo.heap, e.priority ≤ x.1 ∧ (x.1 = e.priority → c ≤ x.2.1)) ∧
      (∀ et nid d p,
        (hTwo.push et nid d p).heap = hTwo.heap ++ [(p, hTwo.counter, ⟨p, et, nid, d⟩)]) ∧
      (∀ x ∈ hTwo.heap, x.2.1 < hTwo.counter) :=
  priority_heap_pop_stable hTwo
    (HeapReachable.push "overload" "N2" 1 2 (HeapReachable.push "overload" "N1" 0 2
      HeapReachable.empty))
    (by simp [hTwo, PriorityHeap.push, PriorityHeap.empty])

/-! ## Claim C3: BalanceNow coalesces all overload events -/

/-- Specification of the heap drain loop: with sufficient fuel, the events
of the rebuilt heap are, as a multiset, the accumulator's events plus
every non-`"overload"` event of the drained heap. -/
theorem coalesceLoop_spec {α : Type} :
    ∀ (fuel : Nat) (s acc : PriorityHeap α) (cl : Nat), s.heap.length ≤ fuel →
      ((coalesceLoop fuel s acc cl).1.heap.map (fun e => e.2.2)).Perm
        ((acc.heap.map (fun e => e.2.2)) ++
          ((s.heap.map (fun e => e.2.2)).filter (fun ev => ev.event_type ≠ "overload"))) := by
  intro fuel
  induction fuel with
  | zero =>
    intro s acc cl hlen
    have : s.heap = [] := List.length_eq_zero.mp (Nat.le_zero.mp hlen)
    simp [coalesceLoop, this]
  | succ n ih =>
    intro s acc cl hlen
    rcases hx : extractMin heapLe s.heap with _ | ⟨m, rest⟩
    · have : s.heap = [] := (extractMin_eq_none_iff heapLe s.heap).mp hx
      simp [coalesceLoop, hx, this, extractMin]
    · have hperm := extractMin_perm heapLe hx
      have hrest : rest.length ≤ n := by
        have := extractMin_length heapLe hx
        omega
      have hfperm :
          ((s.heap.map (fun e => e.2.2)).filter (fun ev => ev.event_type ≠ "overload")).Perm
            (((m :: rest).map (fun e => e.2.2)).filter (fun ev => ev.event_type ≠ "overload")) :=
        ((hperm.map (fun e => e.2.2)).filter _).symm
      by_cases hov : m.2.2.event_type = "overload"
      · have hres := ih { s with heap := rest } acc (cl + 1) hrest
        simp only [coalesceLoop, hx]
        rw [if_pos hov]
        refine hres.trans (List.Perm.append_left _ ?_)
        have hdrop : ((m :: rest).map (fun e => e.2.2)).filter
            (fun ev => ev.event_type ≠ "overload") =
            (rest.map (fun e => e.2.2)).filter (fun ev => ev.event_type ≠ "overload") := by
          simp [hov]
        exact hdrop ▸ hfperm.symm
      · have hres := ih { s with heap := rest }
          (acc.push m.2.2.event_type m.2.2.node_id m.2.2.data m.2.2.priority) cl hrest
        simp only [coalesceLoop, hx]
        rw [if_neg hov]
        refine hres.trans ?_
        have hpush : ((acc.push m.2.2.event_type m.2.2.node_id m.2.2.data
            m.2.2.priority).heap.map (fun e => e.2.2)) =
            (acc.heap.map (fun e => e.2.2)) ++ [m.2.2] := by
          simp [PriorityHeap.push]
        rw [hpush, List.append_assoc]
        refine List.Perm.append_left _ ?_
        have hcons : ((m :: rest).map (fun e => e.2.2)).filter
            (fun ev => ev.event_type ≠ "overload") =
            m.2.2 :: ((rest.map (fun e => e.2.2)).filter (fun ev => ev.event_type ≠ "overload")) := by
          simp [hov]
        have hgoal := hcons ▸ hfperm.symm
        exact hgoal

/-- Folding the guarded re-enqueue over a list, starting from a queue with
enough room, appends exactly the kept events and preserves the counters. -/
theorem enqueue_filter_fold {α : Type} :
    ∀ (xs : List (QEvent α)) (qq : EventQueue α),
      qq.queue.length + xs.length ≤ qq.maxlen →
      (xs.foldl (fun qq e => if e.event_type ≠ "overload" then qq.enqueue e else qq) qq).queue =
        qq.queue ++ xs.filter (fun e => e.event_type ≠ "overload") ∧
      (xs.foldl (fun qq e => if e.event_type ≠ "overload" then qq.enqueue e else qq) qq).maxlen =
        qq.maxlen ∧
      (xs.foldl (fun qq e => if e.event_type ≠ "overload" then qq.enqueue e else qq) qq).dropped =
        qq.dropped := by
  intro xs
  induction xs with
  | nil => intro qq hlen; simp
  | cons e xs ih =>
    intro qq hlen
    by_cases hov : e.event_type ≠ "overload"
    · have hnotfull : ¬ qq.queue.length = qq.maxlen := by
        simp only [List.length_cons] at hlen
        omega
      have hlt : qq.queue.length < qq.maxlen := by
        simp only [List.length_cons] at hlen
        omega
      have henq : (qq.enqueue e).queue = qq.queue ++ [e] ∧ (qq.enqueue e).maxlen = qq.maxlen ∧
          (qq.enqueue e).dropped = qq.dropped := by
        unfold EventQueue.enqueue dequeAppend
        rw [if_neg hnotfull, if_pos hlt]
        exact ⟨rfl, rfl, rfl⟩
      have hih := ih (qq.enqueue e) (by
        have h1 := henq.1
        have h2 := henq.2.1
        have h3 : (qq.enqueue e).queue.length = qq.queue.length + 1 := by
          rw [h1]
          simp
        simp only [List.length_cons] at hlen
        omega)
      simp only [List.foldl_cons, if_pos hov]
      refine ⟨?_, ?_, ?_⟩
      · rw [hih.1, henq.1, List.filter_cons_of_pos (by simpa using hov), List.append_assoc]
        rfl
      · rw [hih.2.1, henq.2.1]
      · rw [hih.2.2, henq.2.2]
    · have hih := ih qq (by
        simp only [List.length_cons] at hlen
        omega)
      simp only [List.foldl_cons, if_neg hov]
      refine ⟨?_, hih.2.1, hih.2.2⟩
      rw [hih.1, List.filter_cons_of_neg (by simpa using hov)]

/-- C3: after the balance endpoint returns, the rebuilt priority heap
contains no `"overload"` event while its other events are exactly (as a
multiset) the non-overload events that were pending, and the FIFO queue is
exactly its old contents with every `"overload"` event removed (so all
other events are still present, in order).  The hypothesis is the deque
size invariant, which every real queue state satisfies. -/
theorem balance_endpoint_coalesces {α : Type} (avl : AVLTree) (g : EnergyGraph)
    (ph : PriorityHeap α) (q : EventQueue α) (hq : q.queue.length ≤ q.maxlen) :
    (∀ e ∈ (balance_endpoint avl g ph q).2.2.1.heap, (e.2.2).event_type ≠ "overload") ∧
    ((balance_endpoint avl g ph q).2.2.1.heap.map (fun e => e.2.2)).Perm
      ((ph.heap.map (fun e => e.2.2)).filter (fun ev => ev.event_type ≠ "overload")) ∧
    (balance_endpoint avl g ph q).2.2.2.1.queue =
      q.queue.filter (fun e => e.event_type ≠ "overload") ∧
    (∀ e ∈ (balance_endpoint avl g ph q).2.2.2.1.queue, e.event_type ≠ "overload") := by
  have hheap : (balance_endpoint avl g ph q).2.2.1 = (coalesce_heap ph).1 := rfl
  have hqueue : (balance_endpoint avl g ph q).2.2.2.1 = coalesce_queue q := rfl
  have hperm := coalesceLoop_spec ph.heap.length ph PriorityHeap.empty 0 le_rfl
  have hperm' : ((coalesce_heap ph).1.heap.map (fun e => e.2.2)).Perm
      ((ph.heap.map (fun e => e.2.2)).filter (fun ev => ev.event_type ≠ "overload")) := by
    simpa [coalesce_heap, PriorityHeap.empty] using hperm
  have hfold := enqueue_filter_fold q.queue { q with queue := ([] : List (QEvent α)) }
    (by simpa using hq)
  have hqq : (coalesce_queue q).queue = q.queue.filter (fun e => e.event_type ≠ "overload") := by
    unfold coalesce_queue
    rw [hfold.1]
    rfl
  refine ⟨?_, ?_, ?_, ?_⟩
  · intro e he
    rw [hheap] at he
    have : e.2.2 ∈ (coalesce_heap ph).1.heap.map (fun x => x.2.2) := List.mem_map_of_mem _ he
    have hmem := hperm'.mem_iff.mp this
    have := List.of_mem_filter hmem
    simpa using this
  · rw [hheap]
    exact hperm'
  · rw [hqueue]
    exact hqq
  · intro e he
    rw [hqueue, hqq] at he
    have := List.of_mem_filter he
    simpa using this

/-- C3 witness: the coalescing statement evaluated at a concrete state
with a two-event heap and a mixed two-event queue. -/
theorem balance_endpoint_coalesces_witness :
    (∀ e ∈ (balance_endpoint AVLTree.empty EnergyGraph.emptyGraph hTwo qMixed).2.2.1.heap,
      (e.2.2).event_type ≠ "overload") ∧
    ((balance_endpoint AVLTree.empty EnergyGraph.emptyGraph hTwo qMixed).2.2.1.heap.map
      (fun e => e.2.2)).Perm
      ((hTwo.heap.map (fun e => e.2.2)).filter (fun ev => ev.event_type ≠ "overload")) ∧
    (balance_endpoint AVLTree.empty EnergyGraph.emptyGraph hTwo qMixed).2.2.2.1.queue =
      qMixed.queue.filter (fun e => e.event_type ≠ "overload") ∧
    (∀ e ∈ (balance_endpoint AVLTree.empty EnergyGraph.emptyGraph hTwo qMixed).2.2.2.1.queue,
      e.event_type ≠ "overload") :=
  balance_endpoint_coalesces AVLTree.empty EnergyGraph.emptyGraph hTwo qMixed
    (by simp [qMixed])

/-! ## Claim C4: the trivial-route scenario -/

set_option maxHeartbeats 1000000 in
/-- C4 counterexample: on the spec's trivial-route graph (`A-B`, `B-C`,
distance 1, resistance 0), `FindOptimal(A, C, Dijkstra)` returns cost 0,
not the claimed cost 2: `add_edge` derives `weight = distance * resistance`
(so 0 here), not `distance * (1 + resistance)`. -/
theorem trivial_route_cost_cex :
    (find_optimal_route RouterState.emptyRouter gABC "A" "C" "dijkstra").1.cost = some 0 ∧
    (find_optimal_route RouterState.emptyRouter gABC "A" "C" "dijkstra").1.cost ≠ some 2 := by
  have h : (find_optimal_route RouterState.emptyRouter gABC "A" "C" "dijkstra").1.cost = some 0 := by
    simp [find_optimal_route, gABC, EnergyGraph.dijkstra, dloop, dijkstraFuel, degTotal,
      gkeys, edgesOf, EnergyGraph.emptyGraph, EnergyGraph.add_node, EnergyGraph.add_edge,
      edgesAppend, dictSet, dictGet, extractMin, pqLe, relaxOne, ltInf, walkPrev,
      RouterState.emptyRouter]
  refine ⟨h, ?_⟩
  rw [h]
  intro hc
  have : (0 : ℚ) = 2 := Option.some.injEq .. ▸ hc
  norm_num at this

set_option maxHeartbeats 1000000 in
/-- C4 amended: on the trivial-route graph the call returns
`path=[A,B,C]`, `hops=2`, `found=true` as claimed, but `cost=0`, because
each edge's weight is derived as `distance * resistance` in the code (0
for resistance 0), not `distance * (1 + resistance)`. -/
theorem trivial_route_result :
    (find_optimal_route RouterState.emptyRouter gABC "A" "C" "dijkstra").1 =
      { path := ["A", "B", "C"], cost := some 0, algorithm := "dijkstra",
        hops := 2, found := true, error := none } := by
  simp [find_optimal_route, gABC, EnergyGraph.dijkstra, dloop, dijkstraFuel, degTotal,
    gkeys, edgesOf, EnergyGraph.emptyGraph, EnergyGraph.add_node, EnergyGraph.add_edge,
    edgesAppend, dictSet, dictGet, extractMin, pqLe, relaxOne, ltInf, walkPrev,
    RouterState.emptyRouter]

/-! ## Claim C2: cache freshness under topology mutations -/

set_option maxHeartbeats 1600000 in
/-- C2 counterexample: route `A - C` on the two-hop graph (cost 2, cached),
then mutate the topology by adding a direct `A - C` edge of weight 1/2.
The second `FindOptimal` call returns the result computed before the
mutation (the cached dict, cost 2), although Dijkstra on the mutated graph
now finds cost 1/2: no topology mutation invalidates the route cache. -/
theorem cache_staleness_cex :
    routeSecond.1 = routeFirst.1 ∧
    routeFirst.1.cost = some 2 ∧
    (gLineMut.dijkstra "A" "C").2 = some (1 / 2) := by
  have hfirst : routeFirst =
      (⟨["A", "B", "C"], some 2, "dijkstra", 2, true, none⟩,
       ⟨[(("A", "C", "dijkstra"), ⟨["A", "B", "C"], some 2, "dijkstra", 2, true, none⟩)],
        [⟨["A", "B", "C"], some 2, "dijkstra", 2, true, none⟩]⟩) := by
    simp [routeFirst, find_optimal_route, gLine, EnergyGraph.dijkstra, dloop, dijkstraFuel,
      degTotal, gkeys, edgesOf, EnergyGraph.emptyGraph, EnergyGraph.add_node,
      EnergyGraph.add_edge, edgesAppend, dictSet, dictGet, extractMin, pqLe, relaxOne, ltInf,
      walkPrev, RouterState.emptyRouter]
    all_goals try norm_num
    all_goals try simp
    all_goals try norm_num
    all_goals try simp
    all_goals try norm_num
  refine ⟨?_, ?_, ?_⟩
  · rw [show routeSecond = find_optimal_route routeFirst.2 gLineMut "A" "C" "dijkstra" from rfl,
      hfirst]
    simp [find_optimal_route, dictGet]
  · rw [hfirst]
  · simp [gLineMut, gLine, EnergyGraph.dijkstra, dloop, dijkstraFuel, degTotal, gkeys,
      edgesOf, EnergyGraph.emptyGraph, EnergyGraph.add_node, EnergyGraph.add_edge,
      edgesAppend, dictSet, dictGet, extractMin, pqLe, relaxOne, ltInf, walkPrev]
    all_goals try norm_num
    all_goals try simp [gLineMut, gLine, EnergyGraph.dijkstra, dloop, dijkstraFuel, degTotal, gkeys,
      edgesOf, EnergyGraph.emptyGraph, EnergyGraph.add_node, EnergyGraph.add_edge,
      edgesAppend, dictSet, dictGet, extractMin, pqLe, relaxOne, ltInf, walkPrev]
    all_goals try norm_num
    all_goals try simp [gLineMut, gLine, EnergyGraph.dijkstra, dloop, dijkstraFuel, degTotal, gkeys,
      edgesOf, EnergyGraph.emptyGraph, EnergyGraph.add_node, EnergyGraph.add_edge,
      edgesAppend, dictSet, dictGet, extractMin, pqLe, relaxOne, ltInf, walkPrev]
    all_goals try norm_num

/-- C2 amended: the route cache is never invalidated by topology
mutations: whenever the `(source, destination, algorithm)` key is present
in the cache, `FindOptimal` returns the cached result unchanged — whatever
has happened to the graph since it was stored — and only an explicit
`ClearCache` empties the cache. -/
theorem find_optimal_route_cache_hit (router : RouterState) (g : EnergyGraph)
    (s d a : String) (r : RouteResult)
    (h : dictGet router.routing_cache (s, d, a) = some r) :
    find_optimal_route router g s d a = (r, router) ∧
    (RouterState.clear_cache router).routing_cache = [] := by
  constructor
  · simp [find_optimal_route, h]
  · rfl

set_option maxHeartbeats 1600000 in
/-- C2 witness: the cache-hit behaviour evaluated on the concrete stale
scenario. -/
theorem find_optimal_route_cache_hit_witness :
    find_optimal_route routeFirst.2 gLineMut "A" "C" "dijkstra" = (routeFirst.1, routeFirst.2) ∧
    (RouterState.clear_cache routeFirst.2).routing_cache = [] :=
  find_optimal_route_cache_hit routeFirst.2 gLineMut "A" "C" "dijkstra" routeFirst.1
    (by
      simp [routeFirst, find_optimal_route, gLine, EnergyGraph.dijkstra, dloop, dijkstraFuel,
        degTotal, gkeys, edgesOf, EnergyGraph.emptyGraph, EnergyGraph.add_node,
        EnergyGraph.add_edge, edgesAppend, dictSet, dictGet, extractMin, pqLe, relaxOne, ltInf,
        walkPrev, RouterState.emptyRouter]
      all_goals try norm_num
      all_goals try simp
      all_goals try norm_num
      all_goals try simp
      all_goals try norm_num)

/-! ## AVL ordering machinery (for claims C5 and C10) -/

theorem allKeys_mono {p q : String → Prop} (h : ∀ x, p x → q x) :
    ∀ {t : AVLNode}, AllKeys p t → AllKeys q t
  | .nil, _ => trivial
  | .node k d l r hh, ⟨hk, hl, hr⟩ =>
    ⟨h k hk, allKeys_mono h hl, allKeys_mono h hr⟩

theorem allKeys_mkNodeH {p : String → Prop} {k d l r} :
    AllKeys p (mkNodeH k d l r) ↔ p k ∧ AllKeys p l ∧ AllKeys p r := Iff.rfl

theorem allKeys_rotate_right {p : String → Prop} :
    ∀ {t : AVLNode}, AllKeys p t → AllKeys p (rotate_right t)
  | .nil, h => h
  | .node zk zd .nil zr hh, h => h
  | .node zk zd (.node yk yd yl yr lh) zr hh, ⟨hzk, ⟨hyk, hyl, hyr⟩, hr⟩ =>
    ⟨hyk, hyl, hzk, hyr, hr⟩

theorem allKeys_rotate_left {p : String → Prop} :
    ∀ {t : AVLNode}, AllKeys p t → AllKeys p (rotate_left t)
  | .nil, h => h
  | .node zk zd zl .nil hh, h => h
  | .node zk zd zl (.node yk yd yl yr lh) hh, ⟨hzk, hl, hyk, hyl, hyr⟩ =>
    ⟨hyk, ⟨hzk, hl, hyl⟩, hyr⟩

theorem ordered_rotate_right : ∀ {t : AVLNode}, Ordered t → Ordered (rotate_right t)
  | .nil, h => h
  | .node zk zd .nil zr hh, h => h
  | .node zk zd (.node yk yd yl yr lh) zr hh, ⟨⟨hykz, hylz, hyrz⟩, hR, ⟨hyll, hyrg, hOyl, hOyr⟩, hOr⟩ =>
    ⟨hyll, ⟨hykz, hyrg, allKeys_mono (fun x hx => hykz.trans hx) hR⟩, hOyl,
      ⟨hyrz, hR, hOyr, hOr⟩⟩

theorem ordered_rotate_left : ∀ {t : AVLNode}, Ordered t → Ordered (rotate_left t)
  | .nil, h => h
  | .node zk zd zl .nil hh, h => h
  | .node zk zd zl (.node yk yd yl yr lh) hh, ⟨hL, ⟨hykz, hylg, hyrg⟩, hOl, ⟨hyll, hyrr, hOyl, hOyr⟩⟩ =>
    ⟨⟨hykz, allKeys_mono (fun x hx => hx.trans hykz) hL, hyll⟩, hyrr,
      ⟨hL, hylg, hOl, hOyl⟩, hOyr⟩

theorem search_rotate_right : ∀ (t : AVLNode), Ordered t → ∀ (k' : String),
    search_recursive (rotate_right t) k' = search_recursive t k' := by
  intro t hO k'
  cases t with
  | nil => rfl
  | node zk zd l zr hh =>
    cases l with
    | nil => rfl
    | node yk yd yl yr lh =>
      obtain ⟨⟨hykz, hylz, hyrz⟩, hR, hOl, hOr⟩ := hO
      show search_recursive (mkNodeH yk yd yl (mkNodeH zk zd yr zr)) k' = _
      rcases lt_trichotomy k' yk with h1 | h1 | h1
      · have hyne : yk ≠ k' := ne_of_gt h1
        have hzlt : k' < zk := h1.trans hykz
        have hzne : zk ≠ k' := ne_of_gt hzlt
        simp [search_recursive, mkNodeH, hyne, hzne, h1, hzlt]
      · subst h1
        have hzne : zk ≠ k' := ne_of_gt hykz
        simp [search_recursive, mkNodeH, hzne, hykz, lt_irrefl]
      · have hyne : yk ≠ k' := ne_of_lt h1
        have hnlt : ¬ k' < yk := lt_asymm h1
        simp [search_recursive, mkNodeH, hyne, hnlt]

theorem search_rotate_left : ∀ (t : AVLNode), Ordered t → ∀ (k' : String),
    search_recursive (rotate_left t) k' = search_recursive t k' := by
  intro t hO k'
  cases t with
  | nil => rfl
  | node zk zd zl r hh =>
    cases r with
    | nil => rfl
    | node yk yd yl yr lh =>
      obtain ⟨hL, ⟨hykz, hylg, hyrg⟩, hOl, hOr⟩ := hO
      show search_recursive (mkNodeH yk yd (mkNodeH zk zd zl yl) yr) k' = _
      rcases lt_trichotomy k' yk with h1 | h1 | h1
      · have hyne : yk ≠ k' := ne_of_gt h1
        by_cases h2 : zk = k'
        · subst h2
          simp [search_recursive, mkNodeH, hyne, h1, lt_irrefl]
        · rcases lt_trichotomy k' zk with h3 | h3 | h3
          · simp [search_recursive, mkNodeH, hyne, h1, h2, h3]
          · exact absurd h3.symm h2
          · have hnlt : ¬ k' < zk := lt_asymm h3
            simp [search_recursive, mkNodeH, hyne, h1, h2, h3, hnlt]
      · subst h1
        have hzne : zk ≠ k' := ne_of_lt hykz
        have hnlt : ¬ k' < zk := lt_asymm hykz
        simp [search_recursive, mkNodeH, hzne, hnlt, lt_irrefl]
      · have hyne : yk ≠ k' := ne_of_lt h1
        have hnlt : ¬ k' < yk := lt_asymm h1
        have hzlt : zk < k' := hykz.trans h1
        have hzne : zk ≠ k' := ne_of_lt hzlt
        have hznlt : ¬ k' < zk := lt_asymm hzlt
        simp [search_recursive, mkNodeH, hyne, hnlt, hzne, hznlt]

theorem allKeys_rebalance {p : String → Prop} (t : AVLNode) (key : String) (h : AllKeys p t) :
    AllKeys p (rebalance t key) := by
  cases t with
  | nil => exact h
  | node k d l r hh =>
    obtain ⟨hk, hl, hr⟩ := h
    unfold rebalance
    dsimp only
    split_ifs with h1 h2 h3 h4
    · exact allKeys_rotate_right ⟨hk, hl, hr⟩
    · exact allKeys_rotate_left ⟨hk, hl, hr⟩
    · exact allKeys_rotate_right ⟨hk, allKeys_rotate_left hl, hr⟩
    · exact allKeys_rotate_left ⟨hk, hl, allKeys_rotate_right hr⟩
    · exact ⟨hk, hl, hr⟩

theorem ordered_rebalance (t : AVLNode) (key : String) (hO : Ordered t) :
    Ordered (rebalance t key) := by
  cases t with
  | nil => exact hO
  | node k d l r hh =>
    obtain ⟨hL, hR, hOl, hOr⟩ := hO
    unfold rebalance
    dsimp only
    split_ifs with h1 h2 h3 h4
    · exact ordered_rotate_right ⟨hL, hR, hOl, hOr⟩
    · exact ordered_rotate_left ⟨hL, hR, hOl, hOr⟩
    · exact ordered_rotate_right ⟨allKeys_rotate_left hL, hR, ordered_rotate_left hOl, hOr⟩
    · exact ordered_rotate_left ⟨hL, allKeys_rotate_right hR, hOl, ordered_rotate_right hOr⟩
    · exact ⟨hL, hR, hOl, hOr⟩

theorem search_rebalance (t : AVLNode) (key k' : String) (hO : Ordered t) :
    search_recursive (rebalance t key) k' = search_recursive t k' := by
  cases t with
  | nil => rfl
  | node k d l r hh =>
    obtain ⟨hL, hR, hOl, hOr⟩ := hO
    unfold rebalance
    dsimp only
    split_ifs with h1 h2 h3 h4
    · exact search_rotate_right (AVLNode.node k d l r hh) ⟨hL, hR, hOl, hOr⟩ k'
    · exact search_rotate_left (AVLNode.node k d l r hh) ⟨hL, hR, hOl, hOr⟩ k'
    · rw [search_rotate_right (AVLNode.node k d (rotate_left l) r hh)
        ⟨allKeys_rotate_left hL, hR, ordered_rotate_left hOl, hOr⟩ k']
      simp only [search_recursive]
      rw [search_rotate_left l hOl k']
    · rw [search_rotate_left (AVLNode.node k d l (rotate_right r) hh)
        ⟨hL, allKeys_rotate_right hR, hOl, ordered_rotate_right hOr⟩ k']
      simp only [search_recursive]
      rw [search_rotate_right r hOr k']
    · rfl

theorem allKeys_insert {p : String → Prop} (key : String) (data : NodeInfo) (hk : p key) :
    ∀ t : AVLNode, AllKeys p t → AllKeys p (insert_recursive t key data) := by
  intro t
  induction t with
  | nil => intro _; exact ⟨hk, trivial, trivial⟩
  | node k d l r h ihl ihr =>
    rintro ⟨hk', hl, hr⟩
    unfold insert_recursive
    split_ifs with h1 h2
    · exact allKeys_rebalance (mkNodeH k d (insert_recursive l key data) r) key ⟨hk', ihl hl, hr⟩
    · exact allKeys_rebalance (mkNodeH k d l (insert_recursive r key data)) key ⟨hk', hl, ihr hr⟩
    · exact ⟨hk', hl, hr⟩

theorem ordered_insert (key : String) (data : NodeInfo) :
    ∀ t : AVLNode, Ordered t → Ordered (insert_recursive t key data) := by
  intro t
  induction t with
  | nil => intro _; exact ⟨trivial, trivial, trivial, trivial⟩
  | node k d l r h ihl ihr =>
    rintro ⟨hL, hR, hOl, hOr⟩
    unfold insert_recursive
    split_ifs with h1 h2
    · exact ordered_rebalance (mkNodeH k d (insert_recursive l key data) r) key
        ⟨@allKeys_insert (fun x => x < k) key data h1 l hL, hR, ihl hOl, hOr⟩
    · exact ordered_rebalance (mkNodeH k d l (insert_recursive r key data)) key
        ⟨hL, @allKeys_insert (fun x => k < x) key data h2 r hR, hOl, ihr hOr⟩
    · exact ⟨hL, hR, hOl, hOr⟩

theorem search_insert_self (key : String) (data : NodeInfo) :
    ∀ t : AVLNode, Ordered t →
      search_recursive (insert_recursive t key data) key = some data := by
  intro t
  induction t with
  | nil => simp [insert_recursive, search_recursive]
  | node k d l r h ihl ihr =>
    rintro ⟨hL, hR, hOl, hOr⟩
    unfold insert_recursive
    split_ifs with h1 h2
    · rw [search_rebalance (mkNodeH k d (insert_recursive l key data) r) key key
        ⟨@allKeys_insert (fun x => x < k) key data h1 l hL, hR, ordered_insert key data l hOl, hOr⟩]
      have hkne : k ≠ key := ne_of_gt h1
      simp [search_recursive, hkne, h1, ihl hOl]
    · rw [search_rebalance (mkNodeH k d l (insert_recursive r key data)) key key
        ⟨hL, @allKeys_insert (fun x => k < x) key data h2 r hR, hOl, ordered_insert key data r hOr⟩]
      have hkne : k ≠ key := ne_of_lt h2
      have hnlt : ¬ key < k := lt_asymm h2
      simp [search_recursive, hkne, hnlt, ihr hOr]
    · have hkey : k = key := le_antisymm (not_lt.mp h1) (not_lt.mp h2)
      simp [search_recursive, hkey]

theorem search_insert_ne (key : String) (data : NodeInfo) (k' : String) (hne : k' ≠ key) :
    ∀ t : AVLNode, Ordered t →
      search_recursive (insert_recursive t key data) k' = search_recursive t k' := by
  intro t
  induction t with
  | nil =>
    intro _
    unfold insert_recursive
    simp [search_recursive, Ne.symm hne]
  | node k d l r h ihl ihr =>
    rintro ⟨hL, hR, hOl, hOr⟩
    unfold insert_recursive
    split_ifs with h1 h2
    · rw [search_rebalance (mkNodeH k d (insert_recursive l key data) r) key k'
        ⟨@allKeys_insert (fun x => x < k) key data h1 l hL, hR, ordered_insert key data l hOl, hOr⟩]
      simp only [search_recursive]
      rw [ihl hOl]
    · rw [search_rebalance (mkNodeH k d l (insert_recursive r key data)) key k'
        ⟨hL, @allKeys_insert (fun x => k < x) key data h2 r hR, hOl, ordered_insert key data r hOr⟩]
      simp only [search_recursive]
      rw [ihr hOr]
    · have hkey : k = key := le_antisymm (not_lt.mp h1) (not_lt.mp h2)
      subst hkey
      have : k ≠ k' := Ne.symm hne
      simp [search_recursive, this]

theorem tree_insert_search_self (t : AVLTree) (key : String) (data : NodeInfo)
    (hO : Ordered t.root) : (t.insert key data).search key = some data :=
  search_insert_self key data t.root hO

theorem tree_insert_search_ne (t : AVLTree) (key : String) (data : NodeInfo) (k' : String)
    (hne : k' ≠ key) (hO : Ordered t.root) :
    (t.insert key data).search k' = t.search k' :=
  search_insert_ne key data k' hne t.root hO

theorem tree_insert_ordered (t : AVLTree) (key : String) (data : NodeInfo)
    (hO : Ordered t.root) : Ordered (t.insert key data).root :=
  ordered_insert key data t.root hO

/-! ## Claim C5: transfers conserve load and update both structures -/

theorem update_load_edges (g : EnergyGraph) (id : String) (load : ℚ) :
    (g.update_load id load).edges = g.edges := by
  unfold EnergyGraph.update_load
  rcases dictGet g.nodes id with _ | nd
  · rfl
  · rfl

theorem update_load_get_other (g : EnergyGraph) (id : String) (load : ℚ) (k : String)
    (hk : k ≠ id) : dictGet (g.update_load id load).nodes k = dictGet g.nodes k := by
  unfold EnergyGraph.update_load
  rcases dictGet g.nodes id with _ | nd
  · rfl
  · exact dictGet_dictSet_ne _ _ hk

theorem update_load_current (g : EnergyGraph) (id : String) (load : ℚ) (nd : GNodeData)
    (h : dictGet g.nodes id = some nd) :
    (dictGet (g.update_load id load).nodes id).map GNodeData.current_load = some load := by
  unfold EnergyGraph.update_load
  rw [h]
  dsimp only
  rw [dictGet_dictSet_self]
  rfl

/-- C5: applying a transfer with `amount > 0` between two distinct nodes
present in both structures strictly decreases the source load and strictly
increases the destination load by exactly `amount`, conserves the sum of
the two loads, mirrors the same new loads into the graph dict, and keeps
the index a well-formed search tree. -/
theorem apply_transfer_conserves (avl : AVLTree) (g : EnergyGraph) (tr : Transfer)
    (df dt : NodeInfo) (nf nt : GNodeData)
    (hO : Ordered avl.root) (hne : tr.tfrom ≠ tr.tto) (hpos : 0 < tr.amount)
    (hdf : avl.search tr.tfrom = some df) (hdt : avl.search tr.tto = some dt)
    (hgf : dictGet g.nodes tr.tfrom = some nf) (hgt : dictGet g.nodes tr.tto = some nt) :
    (apply_transfer avl g tr).1.search tr.tfrom =
      some { df with current_load := df.current_load - tr.amount } ∧
    (apply_transfer avl g tr).1.search tr.tto =
      some { dt with current_load := dt.current_load + tr.amount } ∧
    df.current_load - tr.amount < df.current_load ∧
    dt.current_load < dt.current_load + tr.amount ∧
    (df.current_load - tr.amount) + (dt.current_load + tr.amount) =
      df.current_load + dt.current_load ∧
    (dictGet (apply_transfer avl g tr).2.nodes tr.tfrom).map GNodeData.current_load =
      some (df.current_load - tr.amount) ∧
    (dictGet (apply_transfer avl g tr).2.nodes tr.tto).map GNodeData.current_load =
      some (dt.current_load + tr.amount) ∧
    Ordered (apply_transfer avl g tr).1.root := by
  have hO1 : Ordered (avl.insert tr.tfrom
      { df with current_load := df.current_load - tr.amount }).root :=
    tree_insert_ordered avl tr.tfrom _ hO
  have h1 : (avl.insert tr.tfrom { df with current_load := df.current_load - tr.amount }).search
      tr.tto = some dt := by
    rw [tree_insert_search_ne avl tr.tfrom _ tr.tto (Ne.symm hne) hO, hdt]
  simp only [apply_transfer, hdf, h1]
  refine ⟨?_, ?_, ?_, ?_, ?_, ?_, ?_, ?_⟩
  · rw [tree_insert_search_ne _ tr.tto _ tr.tfrom hne hO1]
    exact tree_insert_search_self avl tr.tfrom _ hO
  · exact tree_insert_search_self _ tr.tto _ hO1
  · linarith
  · linarith
  · ring
  · rw [update_load_get_other _ tr.tto _ tr.tfrom hne]
    exact update_load_current g tr.tfrom _ nf hgf
  · refine update_load_current _ tr.tto _ nt ?_
    rw [update_load_get_other _ tr.tfrom _ tr.tto (Ne.symm hne)]
    exact hgt
  · exact tree_insert_ordered _ tr.tto _ hO1

/-- C5 witness: the transfer statement evaluated on the concrete two-node
index and graph, moving 5 units from `A` to `B`. -/
theorem apply_transfer_conserves_witness :
    (apply_transfer avlAB gAB trAB).1.search trAB.tfrom =
      some { (⟨100, 50, 9 / 10, "consumer"⟩ : NodeInfo) with current_load := 50 - trAB.amount } ∧
    (apply_transfer avlAB gAB trAB).1.search trAB.tto =
      some { (⟨100, 20, 8 / 10, "consumer"⟩ : NodeInfo) with current_load := 20 + trAB.amount } ∧
    (50 : ℚ) - trAB.amount < 50 ∧
    (20 : ℚ) < 20 + trAB.amount ∧
    ((50 : ℚ) - trAB.amount) + (20 + trAB.amount) = 50 + 20 ∧
    (dictGet (apply_transfer avlAB gAB trAB).2.nodes trAB.tfrom).map GNodeData.current_load =
      some (50 - trAB.amount) ∧
    (dictGet (apply_transfer avlAB gAB trAB).2.nodes trAB.tto).map GNodeData.current_load =
      some (20 + trAB.amount) ∧
    Ordered (apply_transfer avlAB gAB trAB).1.root :=
  by
  refine apply_transfer_conserves avlAB gAB trAB
    ⟨100, 50, 9 / 10, "consumer"⟩ ⟨100, 20, 8 / 10, "consumer"⟩
    ⟨"consumer", 100, 0, 9 / 10, "active", 220, 1⟩ ⟨"consumer", 100, 0, 8 / 10, "active", 220, 1⟩
    ?_ ?_ ?_ ?_ ?_ ?_ ?_
  · exact tree_insert_ordered (AVLTree.empty.insert "A" ⟨100, 50, 9 / 10, "consumer"⟩) "B"
      ⟨100, 20, 8 / 10, "consumer"⟩
      (tree_insert_ordered AVLTree.empty "A" ⟨100, 50, 9 / 10, "consumer"⟩ trivial)
  · simp [trAB]
  · norm_num [trAB]
  · show ((AVLTree.empty.insert "A" ⟨100, 50, 9 / 10, "consumer"⟩).insert "B"
        ⟨100, 20, 8 / 10, "consumer"⟩).search trAB.tfrom = _
    have htf : trAB.tfrom = "A" := rfl
    rw [htf]
    rw [tree_insert_search_ne (AVLTree.empty.insert "A" ⟨100, 50, 9 / 10, "consumer"⟩) "B"
      ⟨100, 20, 8 / 10, "consumer"⟩ "A" (by simp)
      (tree_insert_ordered AVLTree.empty "A" ⟨100, 50, 9 / 10, "consumer"⟩ trivial)]
    exact tree_insert_search_self AVLTree.empty "A" ⟨100, 50, 9 / 10, "consumer"⟩ trivial
  · show ((AVLTree.empty.insert "A" ⟨100, 50, 9 / 10, "consumer"⟩).insert "B"
        ⟨100, 20, 8 / 10, "consumer"⟩).search trAB.tto = _
    have htt : trAB.tto = "B" := rfl
    rw [htt]
    exact tree_insert_search_self (AVLTree.empty.insert "A" ⟨100, 50, 9 / 10, "consumer"⟩) "B"
      ⟨100, 20, 8 / 10, "consumer"⟩
      (tree_insert_ordered AVLTree.empty "A" ⟨100, 50, 9 / 10, "consumer"⟩ trivial)
  · simp [gAB, trAB, EnergyGraph.add_node, EnergyGraph.add_edge, EnergyGraph.emptyGraph,
      dictSet, dictGet, edgesAppend]
  · simp [gAB, trAB, EnergyGraph.add_node, EnergyGraph.add_edge, EnergyGraph.emptyGraph,
      dictSet, dictGet, edgesAppend]

/-! ## Claim C10: capacity discipline of the balancer and the optimizer -/

theorem apply_transfer_edges (avl : AVLTree) (g : EnergyGraph) (tr : Transfer) :
    (apply_transfer avl g tr).2.edges = g.edges := by
  unfold apply_transfer
  rcases avl.search tr.tfrom with _ | sd
  · rfl
  · dsimp only
    rcases (avl.insert tr.tfrom _).search tr.tto with _ | dd
    · exact update_load_edges ..
    · rw [update_load_edges, update_load_edges]

theorem apply_transfer_ordered (avl : AVLTree) (g : EnergyGraph) (tr : Transfer)
    (hO : Ordered avl.root) : Ordered (apply_transfer avl g tr).1.root := by
  unfold apply_transfer
  rcases avl.search tr.tfrom with _ | sd
  · exact hO
  · dsimp only
    rcases (avl.insert tr.tfrom _).search tr.tto with _ | dd
    · exact tree_insert_ordered _ _ _ hO
    · exact tree_insert_ordered _ _ _ (tree_insert_ordered _ _ _ hO)

theorem apply_transfer_search_other (avl : AVLTree) (g : EnergyGraph) (tr : Transfer)
    (k : String) (hO : Ordered avl.root) (h1 : k ≠ tr.tfrom) (h2 : k ≠ tr.tto) :
    (apply_transfer avl g tr).1.search k = avl.search k := by
  unfold apply_transfer
  rcases avl.search tr.tfrom with _ | sd
  · rfl
  · dsimp only
    rcases (avl.insert tr.tfrom _).search tr.tto with _ | dd
    · exact tree_insert_search_ne _ _ _ _ h1 hO
    · rw [tree_insert_search_ne _ _ _ _ h2 (tree_insert_ordered _ _ _ hO)]
      exact tree_insert_search_ne _ _ _ _ h1 hO

/-- Capacity discipline of a single applied transfer, for an arbitrary
observed node `k`: if `k` respected its capacity before, and (in case `k`
is the destination of a transfer between distinct nodes) the amount fits
the destination's remaining headroom, then `k` respects its capacity
afterwards. -/
theorem apply_transfer_bound (avl : AVLTree) (g : EnergyGraph) (tr : Transfer)
    (k : String) (hO : Ordered avl.root) (ha : 0 ≤ tr.amount)
    (hk : ∀ info, avl.search k = some info → info.current_load ≤ info.capacity)
    (hdest : k = tr.tto → tr.tfrom ≠ tr.tto → ∀ info, avl.search tr.tto = some info →
      tr.amount ≤ info.capacity - info.current_load) :
    ∀ info', (apply_transfer avl g tr).1.search k = some info' →
      info'.current_load ≤ info'.capacity := by
  intro info' hsearch
  rcases hsf : avl.search tr.tfrom with _ | df
  · rw [show (apply_transfer avl g tr).1 = avl by unfold apply_transfer; rw [hsf]] at hsearch
    exact hk info' hsearch
  · have hO1 : Ordered (avl.insert tr.tfrom
        { df with current_load := df.current_load - tr.amount }).root :=
      tree_insert_ordered avl tr.tfrom _ hO
    rcases hst : (avl.insert tr.tfrom
        { df with current_load := df.current_load - tr.amount }).search tr.tto with _ | dt
    · have hres : (apply_transfer avl g tr).1 =
          avl.insert tr.tfrom { df with current_load := df.current_load - tr.amount } := by
        unfold apply_transfer
        rw [hsf]
        dsimp only
        rw [hst]
      rw [hres] at hsearch
      by_cases hkf : k = tr.tfrom
      · subst hkf
        rw [tree_insert_search_self avl tr.tfrom _ hO] at hsearch
        obtain rfl := Option.some.injEq .. ▸ hsearch
        have := hk df hsf
        simp only
        linarith
      · rw [tree_insert_search_ne avl tr.tfrom _ k hkf hO] at hsearch
        exact hk info' hsearch
    · have hres : (apply_transfer avl g tr).1 =
          (avl.insert tr.tfrom { df with current_load := df.current_load - tr.amount }).insert
            tr.tto { dt with current_load := dt.current_load + tr.amount } := by
        unfold apply_transfer
        rw [hsf]
        dsimp only
        rw [hst]
      rw [hres] at hsearch
      by_cases hkt : k = tr.tto
      · subst hkt
        rw [tree_insert_search_self _ tr.tto _ hO1] at hsearch
        obtain rfl := Option.some.injEq .. ▸ hsearch
        by_cases hft : tr.tfrom = tr.tto
        · have hdt : dt = { df with current_load := df.current_load - tr.amount } := by
            have h2 := hst
            rw [← hft] at h2
            rw [tree_insert_search_self avl tr.tfrom _ hO] at h2
            exact (Option.some.injEq .. ▸ h2).symm
          subst hdt
          have := hk df (hft ▸ hsf)
          simp only
          linarith
        · have havdt : avl.search tr.tto = some dt := by
            rw [← hst, tree_insert_search_ne avl tr.tfrom _ tr.tto (fun h => hft h.symm) hO]
          have := hdest rfl hft dt havdt
          simp only
          linarith
      · rw [tree_insert_search_ne _ tr.tto _ k hkt hO1] at hsearch
        by_cases hkf : k = tr.tfrom
        · subst hkf
          rw [tree_insert_search_self avl tr.tfrom _ hO] at hsearch
          obtain rfl := Option.some.injEq .. ▸ hsearch
          have := hk df hsf
          simp only
          linarith
        · rw [tree_insert_search_ne avl tr.tfrom _ k hkf hO] at hsearch
          exact hk info' hsearch

/-! ## C10 machinery: planner specifications -/

theorem planTransfers_cons_stop (source : String) (r : ℚ) (c : Candidate)
    (cs : List Candidate) (h : r ≤ 0) : planTransfers source r (c :: cs) = ([], r) := by
  rw [planTransfers, if_pos h]

theorem planTransfers_cons_go (source : String) (r : ℚ) (c : Candidate)
    (cs : List Candidate) (h : ¬ r ≤ 0) :
    planTransfers source r (c :: cs) =
      (⟨source, c.id, min r c.available⟩ ::
        (planTransfers source (r - min r c.available) cs).1,
       (planTransfers source (r - min r c.available) cs).2) := by
  rw [planTransfers, if_neg h]

theorem planTransfers_spec (source : String) :
    ∀ (cands : List Candidate), (∀ c ∈ cands, 0 < c.available) →
    ∀ (remaining : ℚ),
    (∀ tr ∈ (planTransfers source remaining cands).1,
       tr.tfrom = source ∧ 0 ≤ tr.amount ∧
       ∃ c ∈ cands, c.id = tr.tto ∧ tr.amount ≤ c.available) ∧
    ((planTransfers source remaining cands).1.map Transfer.tto).Sublist
      (cands.map Candidate.id) := by
  intro cands
  induction cands with
  | nil =>
    intro _ remaining
    refine ⟨?_, ?_⟩
    · intro tr htr
      simp [planTransfers] at htr
    · simp [planTransfers]
  | cons c cs ih =>
    intro hpos remaining
    by_cases hr : remaining ≤ 0
    · rw [planTransfers_cons_stop source remaining c cs hr]
      refine ⟨?_, ?_⟩
      · intro tr htr
        simp at htr
      · simp
    · rw [planTransfers_cons_go source remaining c cs hr]
      have hposcs : ∀ x ∈ cs, 0 < x.available :=
        fun x hx => hpos x (List.mem_cons_of_mem c hx)
      have hih := ih hposcs (remaining - min remaining c.available)
      refine ⟨?_, ?_⟩
      · intro tr htr
        rcases List.mem_cons.mp htr with h | h
        · subst h
          refine ⟨rfl, ?_, c, List.mem_cons_self c cs, rfl, min_le_right ..⟩
          exact le_min (le_of_lt (not_le.mp hr))
            (le_of_lt (hpos c (List.mem_cons_self c cs)))
        · obtain ⟨h1, h2, d, hd, h3, h4⟩ := hih.1 tr h
          exact ⟨h1, h2, d, List.mem_cons_of_mem c hd, h3, h4⟩
      · simp only [List.map_cons]
        exact List.Sublist.cons₂ _ hih.2

theorem availableNeighbors_mem (avl : AVLTree) (g : EnergyGraph) (s : String)
    (c : Candidate) (hc : c ∈ availableNeighbors avl g s) :
    0 < c.available ∧
    ∃ ndata, avl.search c.id = some ndata ∧
      c.available = ndata.capacity - ndata.current_load := by
  simp only [availableNeighbors, List.mem_filterMap] at hc
  obtain ⟨e, _, he⟩ := hc
  obtain ⟨nid, w, ld⟩ := e
  dsimp only at he
  split at he
  · exact absurd he (by simp)
  · rcases hs : avl.search nid with _ | nd
    · rw [hs] at he
      exact absurd he (by simp)
    · rw [hs] at he
      dsimp only at he
      split at he
      · rename_i hpos
        simp only [Option.some.injEq] at he
        subst he
        exact ⟨hpos, nd, hs, rfl⟩
      · exact absurd he (by simp)

theorem map_filterMap_sublist {α β γ : Type} (f : α → Option β) (p : α → γ) (q : β → γ)
    (h : ∀ a b, f a = some b → q b = p a) :
    ∀ l : List α, ((l.filterMap f).map q).Sublist (l.map p) := by
  intro l
  induction l with
  | nil => simp
  | cons a l ih =>
    rcases hf : f a with _ | b
    · simp only [List.filterMap_cons, hf, List.map_cons]
      exact ih.cons _
    · simp only [List.filterMap_cons, hf, List.map_cons]
      rw [h a b hf]
      exact List.Sublist.cons₂ _ ih

theorem availableNeighbors_ids_sublist (avl : AVLTree) (g : EnergyGraph) (s : String) :
    ((availableNeighbors avl g s).map Candidate.id).Sublist
      ((edgesOf g s).map Prod.fst) := by
  refine map_filterMap_sublist _ _ _ ?_ _
  intro e c he
  obtain ⟨nid, w, ld⟩ := e
  dsimp only at he ⊢
  split at he
  · simp at he
  · rcases hs : avl.search nid with _ | nd
    · rw [hs] at he
      simp at he
    · rw [hs] at he
      dsimp only at he
      split at he
      · simp only [Option.some.injEq] at he
        subst he
        rfl
      · simp at he

theorem sumAmounts_nonneg : ∀ (ts : List Transfer), (∀ tr ∈ ts, 0 ≤ tr.amount) →
    0 ≤ sumAmounts ts
  | [], _ => le_refl 0
  | tr :: ts, h => by
    have h1 := h tr (List.mem_cons_self tr ts)
    have h2 := sumAmounts_nonneg ts (fun x hx => h x (List.mem_cons_of_mem tr hx))
    simp only [sumAmounts]
    linarith

theorem foldl_preserve {σ β : Type} (P : σ → Prop) (f : σ → β → σ)
    (h : ∀ s b, P s → P (f s b)) : ∀ (l : List β) (s : σ), P s → P (l.foldl f s) := by
  intro l
  induction l with
  | nil => intro s hs; exact hs
  | cons b l ih =>
    intro s hs
    exact ih (f s b) (h s b hs)

theorem edgesOf_congr (g₁ g₂ : EnergyGraph) (h : g₁.edges = g₂.edges) (k : String) :
    edgesOf g₁ k = edgesOf g₂ k := by
  unfold edgesOf
  rw [h]

/-- Capacity preservation, per observed node `k`, along the balancer's
transfer-application loop: if the index entry at `k` respected its
capacity beforehand, it still does after the transfers (whatever the
state of the other nodes). -/
theorem balancer_fold_bound (source k : String) :
    ∀ (ts : List Transfer) (avl : AVLTree) (g : EnergyGraph),
    Ordered avl.root → capacityAt avl k →
    (ts.map Transfer.tto).Nodup →
    (∀ tr ∈ ts, tr.tfrom = source ∧ 0 ≤ tr.amount ∧
      (tr.tto ≠ source → ∀ info, avl.search tr.tto = some info →
        tr.amount ≤ info.capacity - info.current_load)) →
    Ordered (ts.foldl (fun st tr => apply_transfer st.1 st.2 tr) (avl, g)).1.root ∧
    capacityAt (ts.foldl (fun st tr => apply_transfer st.1 st.2 tr) (avl, g)).1 k ∧
    (ts.foldl (fun st tr => apply_transfer st.1 st.2 tr) (avl, g)).2.edges = g.edges := by
  intro ts
  induction ts with
  | nil =>
    intro avl g hO hB _ _
    exact ⟨hO, hB, rfl⟩
  | cons tr ts ih =>
    intro avl g hO hB hnd hts
    obtain ⟨hfrom, hamt, hdest⟩ := hts tr (List.mem_cons_self tr ts)
    simp only [List.map_cons, List.nodup_cons] at hnd
    obtain ⟨hnotin, hndtail⟩ := hnd
    have hO1 : Ordered (apply_transfer avl g tr).1.root := apply_transfer_ordered avl g tr hO
    have hB1 : capacityAt (apply_transfer avl g tr).1 k := by
      intro info hki
      refine apply_transfer_bound avl g tr k hO hamt (fun i hi => hB i hi) ?_ info hki
      intro _ hne i hi
      exact hdest (fun h => hne (hfrom.trans h.symm)) i hi
    have hts1 : ∀ x ∈ ts, x.tfrom = source ∧ 0 ≤ x.amount ∧
        (x.tto ≠ source → ∀ info, (apply_transfer avl g tr).1.search x.tto = some info →
          x.amount ≤ info.capacity - info.current_load) := by
      intro x hx
      obtain ⟨hf, ha, hd⟩ := hts x (List.mem_cons_of_mem tr hx)
      refine ⟨hf, ha, ?_⟩
      intro hxs info hinfo
      have hx1 : x.tto ≠ tr.tfrom := by
        rw [hfrom]
        exact hxs
      have hx2 : x.tto ≠ tr.tto := by
        intro h
        exact hnotin (h ▸ List.mem_map_of_mem Transfer.tto hx)
      rw [apply_transfer_search_other avl g tr x.tto hO hx1 hx2] at hinfo
      exact hd hxs info hinfo
    have hih := ih (apply_transfer avl g tr).1 (apply_transfer avl g tr).2 hO1 hB1 hndtail hts1
    simp only [List.foldl_cons]
    exact ⟨hih.1, hih.2.1, hih.2.2.trans (apply_transfer_edges avl g tr)⟩

theorem redistribute_load_eq (avl : AVLTree) (g : EnergyGraph) (source : String)
    (load : ℚ) (h : ¬ availableNeighbors avl g source = []) :
    redistribute_load avl g source load =
      (((planTransfers source load ((availableNeighbors avl g source).mergeSort
          (fun a b => decide (b.efficiency ≤ a.efficiency)))).1.foldl
          (fun st tr => apply_transfer st.1 st.2 tr) (avl, g)).1,
       ((planTransfers source load ((availableNeighbors avl g source).mergeSort
          (fun a b => decide (b.efficiency ≤ a.efficiency)))).1.foldl
          (fun st tr => apply_transfer st.1 st.2 tr) (avl, g)).2,
       decide ((planTransfers source load ((availableNeighbors avl g source).mergeSort
          (fun a b => decide (b.efficiency ≤ a.efficiency)))).2 < load * (1 / 10))) := by
  unfold redistribute_load
  rw [if_neg h]

/-- `_redistribute_load` keeps any node that was within capacity within
capacity, when the source's adjacency list has no duplicate neighbor
ids. -/
theorem redistribute_load_bound (avl : AVLTree) (g : EnergyGraph) (source k : String)
    (load : ℚ) (hO : Ordered avl.root) (hB : capacityAt avl k)
    (hnd : ((edgesOf g source).map Prod.fst).Nodup) :
    Ordered (redistribute_load avl g source load).1.root ∧
    capacityAt (redistribute_load avl g source load).1 k ∧
    (redistribute_load avl g source load).2.1.edges = g.edges := by
  by_cases hc : availableNeighbors avl g source = []
  · unfold redistribute_load
    rw [if_pos hc]
    exact ⟨hO, hB, rfl⟩
  · rw [redistribute_load_eq avl g source load hc]
    have hperm : (((availableNeighbors avl g source).mergeSort
        (fun a b => decide (b.efficiency ≤ a.efficiency)))).Perm
        (availableNeighbors avl g source) :=
      List.mergeSort_perm _ _
    have hpos : ∀ c ∈ (availableNeighbors avl g source).mergeSort
        (fun a b => decide (b.efficiency ≤ a.efficiency)), 0 < c.available :=
      fun c hcm => (availableNeighbors_mem avl g source c (hperm.subset hcm)).1
    have hspec := planTransfers_spec source _ hpos load
    refine balancer_fold_bound source k _ avl g hO hB ?_ ?_
    · have h1 : ((availableNeighbors avl g source).map Candidate.id).Nodup :=
        List.Nodup.sublist (availableNeighbors_ids_sublist avl g source) hnd
      have h2 : (((availableNeighbors avl g source).mergeSort
          (fun a b => decide (b.efficiency ≤ a.efficiency))).map Candidate.id).Nodup :=
        ((hperm.map Candidate.id).nodup_iff).mpr h1
      exact List.Nodup.sublist hspec.2 h2
    · intro tr htr
      obtain ⟨hf, ha, c, hc1, hc2, hc3⟩ := hspec.1 tr htr
      refine ⟨hf, ha, ?_⟩
      intro _ info hinfo
      obtain ⟨hposc, ndata, hnd1, hnd2⟩ :=
        availableNeighbors_mem avl g source c (hperm.subset hc1)
      rw [← hc2, hnd1] at hinfo
      have hei : ndata = info := Option.some.injEq .. ▸ hinfo
      subst hei
      rw [← hnd2]
      exact hc3

/-- `LoadBalancer.balance_network` never pushes a node that was within
capacity above its capacity, when no adjacency list mentions a neighbor
twice -- whatever the other nodes' loads (the overloaded sources it
processes typically exceed theirs). -/
theorem balance_network_bound (avl : AVLTree) (g : EnergyGraph) (k : String)
    (hO : Ordered avl.root) (hB : capacityAt avl k)
    (hnd : ∀ u : String, ((edgesOf g u).map Prod.fst).Nodup) :
    Ordered (balance_network avl g).1.root ∧
    capacityAt (balance_network avl g).1 k := by
  unfold balance_network
  dsimp only
  refine And.imp (fun h => h) (fun h => h.1)
    (foldl_preserve
      (fun st : AVLTree × EnergyGraph × Nat =>
        Ordered st.1.root ∧ capacityAt st.1 k ∧ st.2.1.edges = g.edges)
      _ ?_ (avl.get_overloaded_nodes (9 / 10)) (avl, g, 0) ⟨hO, hB, rfl⟩)
  intro st ko hPst
  obtain ⟨a, gr, cnt⟩ := st
  obtain ⟨h1, h2, h3⟩ := hPst
  dsimp only
  rcases hs : a.search ko.1 with _ | ndata
  · exact ⟨h1, h2, h3⟩
  · dsimp only
    by_cases hex : 0 < ndata.current_load - ndata.capacity * (8 / 10)
    · rw [if_pos hex]
      have hnd' : ((edgesOf gr ko.1).map Prod.fst).Nodup := by
        rw [edgesOf_congr gr g h3 ko.1]
        exact hnd ko.1
      have hr := redistribute_load_bound a gr ko.1 k
        (ndata.current_load - ndata.capacity * (8 / 10)) h1 h2 hnd'
      exact ⟨hr.1, hr.2.1, hr.2.2.trans h3⟩
    · rw [if_neg hex]
      exact ⟨h1, h2, h3⟩

/-- Specification of the optimizer's planning scan: every planned transfer
goes into the target from a distinct, strictly less efficient neighbor with
a non-negative amount, and the running total (hence the sum of the planned
amounts) never exceeds the target's available capacity. -/
theorem planAttract_spec (avl : AVLTree) (target : String) (tdata : NodeInfo)
    (hsearch : avl.search target = some tdata) (availCap : ℚ) :
    ∀ (es : List (String × ℚ × LineData)) (total : ℚ),
    (∀ tr ∈ (planAttract avl target tdata.efficiency availCap es total).1,
       tr.tto = target ∧ tr.tfrom ≠ target ∧ 0 ≤ tr.amount) ∧
    (total ≤ availCap →
      total + sumAmounts (planAttract avl target tdata.efficiency availCap es total).1
        ≤ availCap) := by
  intro es
  induction es with
  | nil =>
    intro total
    refine ⟨?_, ?_⟩
    · intro tr htr
      simp [planAttract] at htr
    · intro h
      simpa [planAttract, sumAmounts] using h
  | cons e rest ih =>
    intro total
    obtain ⟨nid, w, ld⟩ := e
    rw [planAttract]
    dsimp only
    by_cases hst : ld.status ≠ "active"
    · rw [if_pos hst]
      exact ih total
    · rw [if_neg hst]
      rcases hs : avl.search nid with _ | nd
    
      · exact ih total
      · dsimp only
        by_cases heff : nd.efficiency < tdata.efficiency
        · rw [if_pos heff]
          have hne : nid ≠ target := by
            intro h
            rw [h, hsearch] at hs
            injection hs with hnd
            rw [hnd] at heff
            exact lt_irrefl _ heff
          by_cases htp : 0 < min (nd.current_load * (2 / 10)) (availCap - total)
          · rw [if_pos htp]
            have hmr := min_le_right (nd.current_load * (2 / 10)) (availCap - total)
            by_cases hbreak : availCap ≤
                total + min (nd.current_load * (2 / 10)) (availCap - total)
            · rw [if_pos hbreak]
              refine ⟨?_, ?_⟩
              · intro tr htr
                simp only [List.mem_singleton] at htr
                subst htr
                exact ⟨rfl, hne, le_of_lt htp⟩
              · intro hle
                simp only [sumAmounts]
                linarith
            · rw [if_neg hbreak]
              have hih := ih (total + min (nd.current_load * (2 / 10)) (availCap - total))
              refine ⟨?_, ?_⟩
              · intro tr htr
                rcases List.mem_cons.mp htr with h | h
                · subst h
                  exact ⟨rfl, hne, le_of_lt htp⟩
                · exact hih.1 tr h
              · intro hle
                have h2 := hih.2 (by linarith)
                simp only [sumAmounts]
                linarith
          · rw [if_neg htp]
            exact ih total
        · rw [if_neg heff]
          exact ih total

/-- Capacity preservation, per observed node `k`, along the optimizer's
transfer-application loop: all transfers point into the target, whose
headroom (tracked against the current tree) covers the total planned
amount. -/
theorem attract_fold_bound (target : String) (cap : ℚ) (k : String) :
    ∀ (ts : List Transfer) (avl : AVLTree) (g : EnergyGraph),
    Ordered avl.root → capacityAt avl k →
    (∀ tr ∈ ts, tr.tto = target ∧ tr.tfrom ≠ target ∧ 0 ≤ tr.amount) →
    (∀ info, avl.search target = some info → info.capacity = cap ∧
      info.current_load + sumAmounts ts ≤ cap) →
    Ordered (ts.foldl (fun st tr => apply_transfer st.1 st.2 tr) (avl, g)).1.root ∧
    capacityAt (ts.foldl (fun st tr => apply_transfer st.1 st.2 tr) (avl, g)).1 k := by
  intro ts
  induction ts with
  | nil =>
    intro avl g hO hB _ _
    exact ⟨hO, hB⟩
  | cons tr ts ih =>
    intro avl g hO hB hts htg
    obtain ⟨htto, hfromne, hamt⟩ := hts tr (List.mem_cons_self tr ts)
    have hsumn : 0 ≤ sumAmounts ts :=
      sumAmounts_nonneg ts (fun x hx => (hts x (List.mem_cons_of_mem tr hx)).2.2)
    have hO1 : Ordered (apply_transfer avl g tr).1.root := apply_transfer_ordered avl g tr hO
    have hB1 : capacityAt (apply_transfer avl g tr).1 k := by
      intro info hki
      refine apply_transfer_bound avl g tr k hO hamt (fun i hi => hB i hi) ?_ info hki
      intro _ _ i hi
      rw [htto] at hi
      obtain ⟨hc, hl⟩ := htg i hi
      simp only [sumAmounts] at hl
      linarith
    have htg1 : ∀ info, (apply_transfer avl g tr).1.search target = some info →
        info.capacity = cap ∧ info.current_load + sumAmounts ts ≤ cap := by
      intro info hinfo
      rcases hsf : avl.search tr.tfrom with _ | sd
      · rw [show (apply_transfer avl g tr).1 = avl by
          unfold apply_transfer; rw [hsf]] at hinfo
        obtain ⟨hc, hl⟩ := htg info hinfo
        simp only [sumAmounts] at hl
        exact ⟨hc, by linarith⟩
      · have hO1' : Ordered (avl.insert tr.tfrom
            { sd with current_load := sd.current_load - tr.amount }).root :=
          tree_insert_ordered avl tr.tfrom _ hO
        have hmid : (avl.insert tr.tfrom
            { sd with current_load := sd.current_load - tr.amount }).search target =
            avl.search target :=
          tree_insert_search_ne avl tr.tfrom _ target (Ne.symm hfromne) hO
        rcases hst : (avl.insert tr.tfrom
            { sd with current_load := sd.current_load - tr.amount }).search tr.tto
          with _ | dd
        · rw [show (apply_transfer avl g tr).1 = avl.insert tr.tfrom
              { sd with current_load := sd.current_load - tr.amount } by
            unfold apply_transfer; rw [hsf]; dsimp only; rw [hst]] at hinfo
          rw [hmid] at hinfo
          obtain ⟨hc, hl⟩ := htg info hinfo
          simp only [sumAmounts] at hl
          exact ⟨hc, by linarith⟩
        · rw [show (apply_transfer avl g tr).1 = (avl.insert tr.tfrom
              { sd with current_load := sd.current_load - tr.amount }).insert tr.tto
              { dd with current_load := dd.current_load + tr.amount } by
            unfold apply_transfer; rw [hsf]; dsimp only; rw [hst]] at hinfo
          rw [htto] at hinfo
          rw [tree_insert_search_self _ target _ hO1'] at hinfo
          have hei : ({ dd with current_load := dd.current_load + tr.amount } :
              NodeInfo) = info := Option.some.injEq .. ▸ hinfo
          subst hei
          have hdd : avl.search target = some dd := by
            rw [← hmid, ← htto]
            exact hst
          obtain ⟨hc, hl⟩ := htg dd hdd
          simp only [sumAmounts] at hl
          refine ⟨hc, ?_⟩
          simp only
          linarith
    have hih := ih (apply_transfer avl g tr).1 (apply_transfer avl g tr).2 hO1 hB1
      (fun x hx => hts x (List.mem_cons_of_mem tr hx)) htg1
    simp only [List.foldl_cons]
    exact hih

/-- `_attract_load_to_efficient_node` keeps any node that was within
capacity within capacity, given the target data the optimizer read from
the tree. -/
theorem attract_load_bound (avl : AVLTree) (g : EnergyGraph) (target : String)
    (tdata : NodeInfo) (k : String) (hO : Ordered avl.root) (hB : capacityAt avl k)
    (hsearch : avl.search target = some tdata) :
    Ordered (attract_load avl g target tdata).1.root ∧
    capacityAt (attract_load avl g target tdata).1 k := by
  unfold attract_load
  by_cases hcap : tdata.capacity - tdata.current_load ≤ 0
  · rw [if_pos hcap]
    exact ⟨hO, hB⟩
  · rw [if_neg hcap]
    dsimp only
    simp only [apply_efficiency_transfer]
    have hspec := planAttract_spec avl target tdata hsearch
      (tdata.capacity - tdata.current_load) (edgesOf g target) 0
    refine attract_fold_bound target tdata.capacity k _ avl g hO hB hspec.1 ?_
    intro info hinfo
    rw [hsearch] at hinfo
    have hei : tdata = info := Option.some.injEq .. ▸ hinfo
    subst hei
    refine ⟨rfl, ?_⟩
    have h2 := hspec.2 (le_of_lt (not_le.mp hcap))
    linarith

/-- `EfficiencyOptimizer.optimize_network` never pushes a node that was
within capacity above its capacity, whatever the other nodes' loads. -/
theorem optimize_network_bound (avl : AVLTree) (g : EnergyGraph) (k : String)
    (hO : Ordered avl.root) (hB : capacityAt avl k) :
    Ordered (optimize_network avl g).1.root ∧
    capacityAt (optimize_network avl g).1 k := by
  unfold optimize_network
  dsimp only
  refine foldl_preserve
    (fun st : AVLTree × EnergyGraph × Nat =>
      Ordered st.1.root ∧ capacityAt st.1 k)
    _ ?_ _ (avl, g, 0) ⟨hO, hB⟩
  intro st ko hPst
  obtain ⟨a, gr, cnt⟩ := st
  obtain ⟨h1, h2⟩ := hPst
  dsimp only
  rcases hs : a.search ko.1 with _ | data
  · exact ⟨h1, h2⟩
  · dsimp only
    by_cases hcond : data.current_load / data.capacity < 6 / 10 ∧ 85 / 100 < data.efficiency
    · rw [if_pos hcond]
      have ha := attract_load_bound a gr ko.1 data k h1 h2 hs
      exact ⟨ha.1, ha.2⟩
    · rw [if_neg hcond]
      exact ⟨h1, h2⟩

set_option maxHeartbeats 1000000 in
/-- Counterexample to the unconditional capacity claim: on `avlSX`/`gSX`
every node starts within capacity (`S` at 10 of 10, `X` at 9 of 10), but
the duplicated edge `S-X` makes the balancer plan two transfers of 1 unit
each against the same 1-unit headroom of `X`, leaving `X` at 11 of 10
after `balance_network`. -/
theorem balance_capacity_overshoot_cex :
    (avlSX.search "S").map (fun i => decide (i.current_load ≤ i.capacity)) = some true ∧
    (avlSX.search "X").map (fun i => decide (i.current_load ≤ i.capacity)) = some true ∧
    ((balance_network avlSX gSX).1.search "X").map
      (fun i => decide (i.current_load ≤ i.capacity)) = some false := by
  have c1 : (['S'] : List Char) < ['X'] := by decide
  have c2 : ¬ (['X'] : List Char) < ['S'] := by decide
  have c3 : (['S'] : List Char) ≤ ['X'] := by decide
  have c4 : ¬ (['X'] : List Char) ≤ ['S'] := by decide
  have c5 : ('S' : Char) < 'X' := by decide
  have c6 : ¬ ('X' : Char) < 'S' := by decide
  have c7 : ¬ (['S'] : List Char) < ['S'] := by decide
  have c8 : ¬ (['X'] : List Char) < ['X'] := by decide
  have r6 : (0 : ℚ) < 10 - 9 := by norm_num
  have r1 : (9 : ℚ) < 10 := by norm_num
  have r2 : ¬ (10 : ℚ) < 10 := by norm_num
  have m1 : (1 : ℚ) / 2 ≤ 1 / 2 := le_refl _
  refine ⟨?_, ?_, ?_⟩
  · simp [avlSX, AVLTree.empty, AVLTree.insert, insert_recursive, rebalance, mkNodeH,
      get_height, get_balance, keyOf, rotate_left, rotate_right, AVLTree.search,
      search_recursive, c1, c2, c3, c4, c5, c6, c7, c8]
    try norm_num
  · simp [avlSX, AVLTree.empty, AVLTree.insert, insert_recursive, rebalance, mkNodeH,
      get_height, get_balance, keyOf, rotate_left, rotate_right, AVLTree.search,
      search_recursive, c1, c2, c3, c4, c5, c6, c7, c8]
    try norm_num
  · simp [balance_network, AVLTree.get_overloaded_nodes, find_overloaded,
      redistribute_load, availableNeighbors, planTransfers, apply_transfer,
      AVLTree.insert, insert_recursive, rebalance, mkNodeH, get_height, get_balance,
      keyOf, rotate_right, rotate_left, AVLTree.search, search_recursive, AVLTree.empty,
      EnergyGraph.update_load, edgesOf, dictGet, dictSet, edgesAppend,
      EnergyGraph.add_edge, EnergyGraph.add_node, EnergyGraph.emptyGraph,
      List.mergeSort, avlSX, gSX, c1, c2, c3, c4, c5, c6, c7, c8, r6, r1, r2, m1]
    all_goals try norm_num [c1, c2, c3, c4, c5, c6, c7, c8, r6, r1, r2, m1]
    all_goals try simp [balance_network, AVLTree.get_overloaded_nodes, find_overloaded,
      redistribute_load, availableNeighbors, planTransfers, apply_transfer,
      AVLTree.insert, insert_recursive, rebalance, mkNodeH, get_height, get_balance,
      keyOf, rotate_right, rotate_left, AVLTree.search, search_recursive, AVLTree.empty,
      EnergyGraph.update_load, edgesOf, dictGet, dictSet, edgesAppend,
      EnergyGraph.add_edge, EnergyGraph.add_node, EnergyGraph.emptyGraph,
      List.mergeSort, avlSX, gSX, c1, c2, c3, c4, c5, c6, c7, c8, r6, r1, r2, m1]
    all_goals try norm_num [c1, c2, c3, c4, c5, c6, c7, c8, r6, r1, r2, m1]
    all_goals try simp [balance_network, AVLTree.get_overloaded_nodes, find_overloaded,
      redistribute_load, availableNeighbors, planTransfers, apply_transfer,
      AVLTree.insert, insert_recursive, rebalance, mkNodeH, get_height, get_balance,
      keyOf, rotate_right, rotate_left, AVLTree.search, search_recursive, AVLTree.empty,
      EnergyGraph.update_load, edgesOf, dictGet, dictSet, edgesAppend,
      EnergyGraph.add_edge, EnergyGraph.add_node, EnergyGraph.emptyGraph,
      List.mergeSort, avlSX, gSX, c1, c2, c3, c4, c5, c6, c7, c8, r6, r1, r2, m1]
    all_goals try norm_num [c1, c2, c3, c4, c5, c6, c7, c8, r6, r1, r2, m1]
    all_goals try simp [balance_network, AVLTree.get_overloaded_nodes, find_overloaded,
      redistribute_load, availableNeighbors, planTransfers, apply_transfer,
      AVLTree.insert, insert_recursive, rebalance, mkNodeH, get_height, get_balance,
      keyOf, rotate_right, rotate_left, AVLTree.search, search_recursive, AVLTree.empty,
      EnergyGraph.update_load, edgesOf, dictGet, dictSet, edgesAppend,
      EnergyGraph.add_edge, EnergyGraph.add_node, EnergyGraph.emptyGraph,
      List.mergeSort, avlSX, gSX, c1, c2, c3, c4, c5, c6, c7, c8, r6, r1, r2, m1]
    all_goals try norm_num [c1, c2, c3, c4, c5, c6, c7, c8, r6, r1, r2, m1]
    all_goals try simp [balance_network, AVLTree.get_overloaded_nodes, find_overloaded,
      redistribute_load, availableNeighbors, planTransfers, apply_transfer,
      AVLTree.insert, insert_recursive, rebalance, mkNodeH, get_height, get_balance,
      keyOf, rotate_right, rotate_left, AVLTree.search, search_recursive, AVLTree.empty,
      EnergyGraph.update_load, edgesOf, dictGet, dictSet, edgesAppend,
      EnergyGraph.add_edge, EnergyGraph.add_node, EnergyGraph.emptyGraph,
      List.mergeSort, avlSX, gSX, c1, c2, c3, c4, c5, c6, c7, c8, r6, r1, r2, m1]
    all_goals try norm_num [c1, c2, c3, c4, c5, c6, c7, c8, r6, r1, r2, m1]

/-- **C10** (corrected).  Every transfer planned by the balancer or the
optimizer is capped by its destination's remaining capacity at planning
time; provided no adjacency list mentions the same neighbour twice, this
gives the per-node guarantee: any node `k` whose stored `current_load`
was at most its `capacity` beforehand is never pushed above its capacity
by `balance_network` or `optimize_network` -- whatever the other nodes'
loads (the overloaded sources typically exceed theirs).  The
no-duplicate proviso is necessary, because `add_edge` admits parallel
edges: see the counterexample. -/
theorem balance_optimize_capacity (avl : AVLTree) (g : EnergyGraph) (k : String)
    (hO : Ordered avl.root)
    (hnd : ∀ u : String, ((edgesOf g u).map Prod.fst).Nodup)
    (hk : ∀ info, avl.search k = some info → info.current_load ≤ info.capacity) :
    (∀ info, (balance_network avl g).1.search k = some info →
      info.current_load ≤ info.capacity) ∧
    (∀ info, (optimize_network avl g).1.search k = some info →
      info.current_load ≤ info.capacity) :=
  ⟨(balance_network_bound avl g k hO hk hnd).2, (optimize_network_bound avl g k hO hk).2⟩

theorem balance_optimize_capacity_witness :
    (∀ info, (balance_network avlXY gXY).1.search "Y" = some info →
      info.current_load ≤ info.capacity) ∧
    (∀ info, (optimize_network avlXY gXY).1.search "Y" = some info →
      info.current_load ≤ info.capacity) :=
  balance_optimize_capacity avlXY gXY "Y"
    (tree_insert_ordered (AVLTree.empty.insert "X" ⟨100, 120, 9 / 10, "consumer"⟩)
      "Y" ⟨100, 10, 9 / 10, "consumer"⟩
      (tree_insert_ordered AVLTree.empty "X" ⟨100, 120, 9 / 10, "consumer"⟩ trivial))
    (by
      intro u
      simp only [gXY, EnergyGraph.emptyGraph, EnergyGraph.add_node, EnergyGraph.add_edge,
        edgesAppend, dictSet, dictGet, edgesOf]
      split_ifs <;> simp)
    (by
      intro info h
      simp only [avlXY] at h
      rw [tree_insert_search_self (AVLTree.empty.insert "X" ⟨100, 120, 9 / 10, "consumer"⟩)
        "Y" ⟨100, 10, 9 / 10, "consumer"⟩
        (tree_insert_ordered AVLTree.empty "X" ⟨100, 120, 9 / 10, "consumer"⟩ trivial)] at h
      have hei : (⟨100, 10, 9 / 10, "consumer"⟩ : NodeInfo) = info :=
        Option.some.injEq .. ▸ h
      subst hei
      norm_num)

/-! ## Claim C1 machinery: order facts, reachability facts, fold helpers -/

theorem pqLe_total (a b : ℚ × String) : (pqLe a b || pqLe b a) = true := by
  unfold pqLe
  rcases lt_trichotomy a.1 b.1 with h | h | h
  · simp [h]
  · rcases le_total a.2 b.2 with h2 | h2 <;> simp [h, h2]
  · simp [h]

theorem pqLe_trans (a b c : ℚ × String) (h1 : pqLe a b = true) (h2 : pqLe b c = true) :
    pqLe a c = true := by
  unfold pqLe at h1 h2 ⊢
  simp only [Bool.or_eq_true, Bool.and_eq_true, decide_eq_true_eq] at h1 h2 ⊢
  rcases h1 with h1 | ⟨h1, h1'⟩ <;> rcases h2 with h2 | ⟨h2, h2'⟩
  · exact Or.inl (h1.trans h2)
  · exact Or.inl (h2 ▸ h1)
  · exact Or.inl (h1 ▸ h2)
  · exact Or.inr ⟨h1.trans h2, h1'.trans h2'⟩

theorem pqLe_fst_le (a b : ℚ × String) (h : pqLe a b = true) : a.1 ≤ b.1 := by
  unfold pqLe at h
  simp only [Bool.or_eq_true, Bool.and_eq_true, decide_eq_true_eq] at h
  rcases h with h | ⟨h, _⟩
  · exact le_of_lt h
  · exact le_of_eq h

theorem reaches_keys (g : EnergyGraph) (start : String) (hwf : GraphWF g)
    (hs : start ∈ gkeys g) : ∀ {v : String} {c : ℚ}, Reaches g start v c → v ∈ gkeys g := by
  intro v c h
  induction h with
  | refl => exact hs
  | tail hr he _ ih => exact hwf.closed _ ih _ he

theorem reaches_nonneg (g : EnergyGraph) (start : String) (hwf : GraphWF g)
    (hnn : NonnegActive g) (hs : start ∈ gkeys g) :
    ∀ {v : String} {c : ℚ}, Reaches g start v c → 0 ≤ c := by
  intro v c h
  induction h with
  | refl => exact le_refl 0
  | tail hr he ha ih =>
    have hu := reaches_keys g start hwf hs hr
    have hw := hnn _ hu _ he ha
    linarith

theorem foldl_q_stable {σ β : Type} (P Q : σ → Prop) (f : σ → β → σ) :
    ∀ l : List β,
    (∀ s b, b ∈ l → P s → P (f s b)) →
    (∀ s b, b ∈ l → P s → Q s → Q (f s b)) →
    ∀ s, P s → Q s → Q (l.foldl f s) := by
  intro l
  induction l with
  | nil => intro _ _ s _ hq; exact hq
  | cons b l ih =>
    intro hP hQ s hp hq
    exact ih (fun s b' hb' => hP s b' (List.mem_cons_of_mem b hb'))
      (fun s b' hb' => hQ s b' (List.mem_cons_of_mem b hb'))
      (f s b) (hP s b (List.mem_cons_self b l) hp)
      (hQ s b (List.mem_cons_self b l) hp hq)

theorem foldl_inv_post {σ β : Type} (P : σ → Prop) (Q : σ → β → Prop) (f : σ → β → σ) :
    ∀ l : List β,
    (∀ s b, b ∈ l → P s → P (f s b) ∧ Q (f s b) b) →
    (∀ s b b', b ∈ l → P s → Q s b' → Q (f s b) b') →
    ∀ s, P s → P (l.foldl f s) ∧ ∀ b ∈ l, Q (l.foldl f s) b := by
  intro l
  induction l with
  | nil =>
    intro _ _ s h
    exact ⟨h, by simp⟩
  | cons b l ih =>
    intro hstep hmono s h
    obtain ⟨h1, h2⟩ := hstep s b (List.mem_cons_self b l) h
    obtain ⟨h3, h4⟩ := ih
      (fun s b' hb' => hstep s b' (List.mem_cons_of_mem b hb'))
      (fun s b'' b' hb'' => hmono s b'' b' (List.mem_cons_of_mem b hb''))
      (f s b) h1
    refine ⟨h3, ?_⟩
    intro b' hb'
    rcases List.mem_cons.mp hb' with rfl | hb'
    · exact foldl_q_stable P (fun t => Q t b') f l
        (fun s b'' hb'' hp => (hstep s b'' (List.mem_cons_of_mem b' hb'') hp).1)
        (fun s b'' hb'' hp hq => hmono s b'' b' (List.mem_cons_of_mem b' hb'') hp hq)
        (f s b') h1 h2
    · exact h4 b' hb'

theorem sum_unvisited_append (g : EnergyGraph) (u : String) (vis : List String) :
    ∀ l : List String, l.Nodup → u ∈ l → u ∉ vis →
    ((l.map (fun k => if k ∈ vis ++ [u] then 0 else (edgesOf g k).length)).sum +
      (edgesOf g u).length =
     (l.map (fun k => if k ∈ vis then 0 else (edgesOf g k).length)).sum) := by
  intro l
  induction l with
  | nil => intro _ h; exact absurd h (List.not_mem_nil u)
  | cons x l ih =>
    intro hnd hu hunv
    simp only [List.nodup_cons] at hnd
    simp only [List.map_cons, List.sum_cons]
    rcases List.mem_cons.mp hu with rfl | hu'
    · have h1 : u ∈ vis ++ [u] := List.mem_append_right _ (List.mem_singleton.mpr rfl)
      rw [if_pos h1, if_neg hunv]
      have htail : (l.map (fun k => if k ∈ vis ++ [u] then 0 else (edgesOf g k).length)) =
          (l.map (fun k => if k ∈ vis then 0 else (edgesOf g k).length)) := by
        refine List.map_congr_left ?_
        intro k hk
        have hkx : k ≠ u := fun h => hnd.1 (h ▸ hk)
        by_cases hkv : k ∈ vis
        · rw [if_pos hkv, if_pos (List.mem_append_left _ hkv)]
        · rw [if_neg hkv, if_neg (by
            intro hmem
            rcases List.mem_append.mp hmem with h | h
            · exact hkv h
            · exact hkx (List.mem_singleton.mp h))]
      rw [htail]
      omega
    · have hxu : x ≠ u := fun h => hnd.1 (h ▸ hu')
      have hhead : (if x ∈ vis ++ [u] then 0 else (edgesOf g x).length) =
          (if x ∈ vis then 0 else (edgesOf g x).length) := by
        by_cases hxv : x ∈ vis
        · rw [if_pos hxv, if_pos (List.mem_append_left _ hxv)]
        · rw [if_neg hxv, if_neg (by
            intro hmem
            rcases List.mem_append.mp hmem with h | h
            · exact hxv h
            · exact hxu (List.mem_singleton.mp h))]
      rw [hhead]
      have := ih hnd.2 hu' hunv
      omega

/-- The cut argument at a minimal pop `(d, u)`: every path into a visited
node is matched by its stored distance, and every path into an unvisited
node costs at least `d`. -/
theorem dinv_cut (g : EnergyGraph) (start : String) (hwf : GraphWF g)
    (hnn : NonnegActive g) (hs : start ∈ gkeys g) (s : DState) (hI : DInv g start s)
    (d : ℚ) (u : String) (hmem : (d, u) ∈ s.pq) (hmin : ∀ e ∈ s.pq, d ≤ e.1) :
    ∀ {v : String} {c : ℚ}, Reaches g start v c →
      (v ∈ s.visited → ∃ dv, s.dist v = some dv ∧ dv ≤ c) ∧
      (v ∉ s.visited → d ≤ c) := by
  intro v c h
  induction h with
  | refl =>
    refine ⟨?_, ?_⟩
    · intro hv
      exact hI.vis_min start hv 0 Reaches.refl
    · intro hv
      exact hmin (0, start) (hI.frontier start hv 0 hI.dist_start)
  | tail hr he ha ih =>
    rename_i x y w ld cx
    have hx_keys : x ∈ gkeys g := reaches_keys g start hwf hs hr
    have hw : 0 ≤ w := hnn x hx_keys (y, w, ld) he ha
    refine ⟨?_, ?_⟩
    · intro hy
      by_cases hxv : x ∈ s.visited
      · obtain ⟨du, dv, hdu, hdv, hle⟩ := hI.relaxed x hxv (y, w, ld) he ha
        obtain ⟨du2, hdu2, hc⟩ := ih.1 hxv
        rw [hdu] at hdu2
        injection hdu2 with hdu2
        exact ⟨dv, hdv, by rw [← hdu2] at hc; linarith⟩
      · have hdc := ih.2 hxv
        obtain ⟨dy, hdy, hdyd⟩ := hI.vis_le_pq y hy (d, u) hmem
        exact ⟨dy, hdy, by linarith⟩
    · intro hy
      by_cases hxv : x ∈ s.visited
      · obtain ⟨du, dv, hdu, hdv, hle⟩ := hI.relaxed x hxv (y, w, ld) he ha
        obtain ⟨du2, hdu2, hc⟩ := ih.1 hxv
        rw [hdu] at hdu2
        injection hdu2 with hdu2
        have hdy := hI.frontier y hy dv hdv
        have := hmin (dv, y) hdy
        simp only at this
        rw [← hdu2] at hc
        linarith
      · have hdc := ih.2 hxv
        linarith

/-- The invariant holds at the loop's initial state. -/
theorem dinv_init (g : EnergyGraph) (start : String) (hs : start ∈ gkeys g) :
    DInv g start
      { dist := fun v => if v = start then some 0 else none,
        prev := fun _ => none,
        pq := [((0 : ℚ), start)],
        visited := [] } := by
  refine ⟨?_, ?_, ?_, ?_, ?_, ?_, ?_, ?_, ?_, ?_, ?_, ?_, ?_, ?_, ?_, ?_⟩
  · intro v c h
    dsimp only at h
    split at h
    · rename_i hv
      injection h with h
      subst hv
      rw [← h]
      exact Reaches.refl
    · exact absurd h (by simp)
  · intro e he
    simp only [List.mem_singleton] at he
    subst he
    exact ⟨0, by simp, le_refl 0⟩
  · intro e he
    simp only [List.mem_singleton] at he
    subst he
    exact hs
  · simp
  · intro v hv
    simp at hv
  · exact List.nodup_nil
  · intro v hv
    simp at hv
  · intro u hu
    simp at hu
  · intro v hv dv h
    dsimp only at h
    split at h
    · rename_i hveq
      injection h with h
      subst hveq
      rw [← h]
      exact List.mem_singleton.mpr rfl
    · exact absurd h (by simp)
  · intro v hv
    simp at hv
  · intro v u h
    exact absurd h (by simp)
  · intro v u h
    exact absurd h (by simp)
  · rfl
  · intro e he
    simp only [List.mem_singleton] at he
    subst he
    exact Or.inl rfl
  · intro v hv
    simp at hv
  · intro v u h
    exact absurd h (by simp)

/-- With an empty heap the loop state is final: every reachable node
already carries an optimal finite distance. -/
theorem dfinal_of_empty (g : EnergyGraph) (start end_ : String) (s : DState)
    (hI : DInv g start s) (hpq : s.pq = []) : DFinal g start end_ s := by
  have hopt : ∀ {v : String} {c : ℚ}, Reaches g start v c →
      ∃ dv, s.dist v = some dv ∧ dv ≤ c := by
    intro v c h
    induction h with
    | refl => exact ⟨0, hI.dist_start, le_refl 0⟩
    | tail hr he ha ih =>
      rename_i x y w ld cx
      obtain ⟨du, hdu, hduc⟩ := ih
      by_cases hxv : x ∈ s.visited
      · obtain ⟨du2, dv, hdu2, hdv, hle⟩ := hI.relaxed x hxv (y, w, ld) he ha
        rw [hdu] at hdu2
        injection hdu2 with hdu2
        exact ⟨dv, hdv, by rw [← hdu2] at hle; linarith⟩
      · have := hI.frontier x hxv du hdu
        rw [hpq] at this
        exact absurd this (List.not_mem_nil _)
  refine ⟨hI.dsound, hI.dist_start, fun c h => hopt h, ?_, hI.vis_keys, hI.vis_nodup,
    hI.prev_vis, hI.prev_dist, hI.vis_or_prev, hI.prev_idx⟩
  intro hreach
  obtain ⟨c, hc⟩ := hreach
  obtain ⟨de, hde, _⟩ := hopt hc
  by_cases hev : end_ ∈ s.visited
  · exact hev
  · have := hI.frontier end_ hev de hde
    rw [hpq] at this
    exact absurd this (List.not_mem_nil _)

/-- One relaxation step preserves the phase invariant and establishes the
relaxation bound for the edge just processed. -/
theorem relaxOne_step (g : EnergyGraph) (start : String) (hwf : GraphWF g)
    (hnn : NonnegActive g) (hs : start ∈ gkeys g) (u : String) (d : ℚ)
    (t : DState) (e : String × ℚ × LineData) (he : e ∈ edgesOf g u)
    (hR : RInv g start u d t) :
    RInv g start u d (relaxOne u d t e) ∧
    ((e.2.2).status = "active" →
      ∃ dv, (relaxOne u d t e).dist e.1 = some dv ∧ dv ≤ d + e.2.1) := by
  obtain ⟨v, w, ld⟩ := e
  simp only [relaxOne]
  by_cases hst : ld.status ≠ "active"
  · rw [if_pos hst]
    exact ⟨hR, fun ha => absurd ha hst⟩
  · rw [if_neg hst]
    have hst' : ld.status = "active" := not_not.mp hst
    by_cases hlt : ltInf (d + w) (t.dist v) = true
    · rw [if_pos hlt]
      have hw : 0 ≤ w := hnn u hR.u_keys (v, w, ld) he hst'
      have hv_keys : v ∈ gkeys g := hwf.closed u hR.u_keys (v, w, ld) he
      have hud : Reaches g start u d := hR.dsound u d hR.dist_u
      have hd0 : 0 ≤ d := reaches_nonneg g start hwf hnn hs hud
      have hvd : Reaches g start v (d + w) := Reaches.tail hud he hst'
      have hvnv : v ∉ t.visited := by
        intro hv
        obtain ⟨dx, hdx, hdxd⟩ := hR.hvd v hv
        rw [hdx] at hlt
        simp only [ltInf, decide_eq_true_eq] at hlt
        linarith
      have hvne_start : v ≠ start := by
        intro h
        subst h
        rw [hR.dist_start] at hlt
        simp only [ltInf, decide_eq_true_eq] at hlt
        linarith
      have hvneu : v ≠ u := fun h => hvnv (h ▸ hR.u_vis)
      refine ⟨⟨?_, ?_, ?_, ?_, ?_, ?_, ?_, ?_, ?_, ?_, ?_, ?_, ?_, ?_, ?_, ?_, ?_, ?_, ?_,
        ?_⟩, ?_⟩
      · -- dsound
        intro x c h
        dsimp only at h
        split at h
        · rename_i hx
          injection h with h
          subst hx
          rw [← h]
          exact hvd
        · exact hR.dsound x c h
      · -- pq_dist
        intro e' he'
        dsimp only at he' ⊢
        rcases List.mem_append.mp he' with he' | he'
        · obtain ⟨dv', hdv', hle'⟩ := hR.pq_dist e' he'
          by_cases hev : e'.2 = v
          · rw [hev] at hdv'
            rw [hdv'] at hlt
            simp only [ltInf, decide_eq_true_eq] at hlt
            refine ⟨d + w, ?_, by linarith⟩
            rw [if_pos hev]
          · refine ⟨dv', ?_, hle'⟩
            rw [if_neg hev]
            exact hdv'
        · simp only [List.mem_singleton] at he'
          subst he'
          refine ⟨d + w, ?_, le_refl _⟩
          dsimp only
          rw [if_pos rfl]
      · -- pq_keys
        intro e' he'
        dsimp only at he'
        rcases List.mem_append.mp he' with he' | he'
        · exact hR.pq_keys e' he'
        · simp only [List.mem_singleton] at he'
          subst he'
          exact hv_keys
      · -- dist_start
        dsimp only
        rw [if_neg (Ne.symm hvne_start)]
        exact hR.dist_start
      · -- vis_keys
        exact hR.vis_keys
      · -- vis_nodup
        exact hR.vis_nodup
      · -- vis_min
        intro x hx c hc
        have hxv : x ≠ v := fun h => hvnv (h ▸ hx)
        obtain ⟨dv', hdv', hle'⟩ := hR.vis_min x hx c hc
        refine ⟨dv', ?_, hle'⟩
        dsimp only
        rw [if_neg hxv]
        exact hdv'
      · -- relaxedO
        intro x hx hxu e'' he'' ha''
        have hxv : x ≠ v := fun h => hvnv (h ▸ hx)
        obtain ⟨du', dv', hdu', hdv', hle'⟩ := hR.relaxedO x hx hxu e'' he'' ha''
        by_cases hev : e''.1 = v
        · rw [hev] at hdv'
          rw [hdv'] at hlt
          simp only [ltInf, decide_eq_true_eq] at hlt
          refine ⟨du', d + w, ?_, ?_, by linarith⟩
          · dsimp only
            rw [if_neg hxv]
            exact hdu'
          · dsimp only
            rw [if_pos hev]
        · refine ⟨du', dv', ?_, ?_, hle'⟩
          · dsimp only
            rw [if_neg hxv]
            exact hdu'
          · dsimp only
            rw [if_neg hev]
            exact hdv'
      · -- frontier
        intro x hx dx hdx
        dsimp only at hdx ⊢
        split at hdx
        · rename_i hxv
          subst hxv
          injection hdx with hdx
          subst hdx
          exact List.mem_append_right _ (List.mem_singleton.mpr rfl)
        · exact List.mem_append_left _ (hR.frontier x hx dx hdx)
      · -- vis_le_pq
        intro x hx e' he'
        have hxv : x ≠ v := fun h => hvnv (h ▸ hx)
        dsimp only at he' ⊢
        rcases List.mem_append.mp he' with he' | he'
        · obtain ⟨dx, hdx, hle'⟩ := hR.vis_le_pq x hx e' he'
          refine ⟨dx, ?_, hle'⟩
          rw [if_neg hxv]
          exact hdx
        · simp only [List.mem_singleton] at he'
          subst he'
          obtain ⟨dx, hdx, hdxd⟩ := hR.hvd x hx
          refine ⟨dx, ?_, by dsimp only; linarith⟩
          rw [if_neg hxv]
          exact hdx
      · -- prev_vis
        intro x u'' h
        dsimp only at h
        split at h
        · injection h with h
          rw [← h]
          exact hR.u_vis
        · exact hR.prev_vis x u'' h
      · -- prev_dist
        intro x u'' h
        dsimp only at h ⊢
        split at h
        · rename_i hxv
          refine ⟨d + w, ?_⟩
          rw [if_pos hxv]
        · rename_i hxv
          obtain ⟨dx, hdx⟩ := hR.prev_dist x u'' h
          refine ⟨dx, ?_⟩
          rw [if_neg hxv]
          exact hdx
      · -- prev_start
        dsimp only
        rw [if_neg (Ne.symm hvne_start)]
        exact hR.prev_start
      · -- pq_or_prev
        intro e' he'
        dsimp only at he' ⊢
        rcases List.mem_append.mp he' with he' | he'
        · rcases hR.pq_or_prev e' he' with h | h
          · exact Or.inl h
          · right
            by_cases hev : e'.2 = v
            · rw [if_pos hev]
              simp
            · rw [if_neg hev]
              exact h
        · simp only [List.mem_singleton] at he'
          subst he'
          right
          dsimp only
          rw [if_pos rfl]
          simp
      · -- vis_or_prev
        intro x hx
        have hxv : x ≠ v := fun h => hvnv (h ▸ hx)
        rcases hR.vis_or_prev x hx with h | h
        · exact Or.inl h
        · right
          dsimp only
          rw [if_neg hxv]
          exact h
      · -- prev_idx
        intro x u'' h hx
        have hxv : x ≠ v := fun h2 => hvnv (h2 ▸ hx)
        dsimp only at h
        rw [if_neg hxv] at h
        exact hR.prev_idx x u'' h hx
      · -- u_vis
        exact hR.u_vis
      · -- u_keys
        exact hR.u_keys
      · -- dist_u
        dsimp only
        rw [if_neg hvneu.symm]
        exact hR.dist_u
      · -- hvd
        intro x hx
        have hxv : x ≠ v := fun h => hvnv (h ▸ hx)
        obtain ⟨dx, hdx, hdxd⟩ := hR.hvd x hx
        refine ⟨dx, ?_, hdxd⟩
        dsimp only
        rw [if_neg hxv]
        exact hdx
      · -- the freshly proved relaxation bound
        intro _
        refine ⟨d + w, ?_, le_refl _⟩
        dsimp only
        rw [if_pos rfl]
    · rw [if_neg hlt]
      refine ⟨hR, ?_⟩
      intro _
      rcases hdv : t.dist v with _ | dv
      · rw [hdv] at hlt
        simp [ltInf] at hlt
      · rw [hdv] at hlt
        simp only [ltInf, decide_eq_true_eq] at hlt
        exact ⟨dv, rfl, by linarith⟩

/-- Later relaxation steps keep an already established relaxation bound. -/
theorem relaxOne_mono (g : EnergyGraph) (start : String) (hwf : GraphWF g)
    (hnn : NonnegActive g) (u : String) (d : ℚ)
    (t : DState) (e e' : String × ℚ × LineData) (he : e ∈ edgesOf g u)
    (hR : RInv g start u d t)
    (hQ : (e'.2.2).status = "active" →
      ∃ dv, t.dist e'.1 = some dv ∧ dv ≤ d + e'.2.1) :
    (e'.2.2).status = "active" →
      ∃ dv, (relaxOne u d t e).dist e'.1 = some dv ∧ dv ≤ d + e'.2.1 := by
  intro ha'
  obtain ⟨dv', hdv', hle'⟩ := hQ ha'
  obtain ⟨v, w, ld⟩ := e
  simp only [relaxOne]
  by_cases hst : ld.status ≠ "active"
  · rw [if_pos hst]
    exact ⟨dv', hdv', hle'⟩
  · rw [if_neg hst]
    by_cases hlt : ltInf (d + w) (t.dist v) = true
    · rw [if_pos hlt]
      by_cases hev : e'.1 = v
      · rw [hev] at hdv'
        rw [hdv'] at hlt
        simp only [ltInf, decide_eq_true_eq] at hlt
        refine ⟨d + w, ?_, by linarith⟩
        dsimp only
        rw [if_pos hev]
      · refine ⟨dv', ?_, hle'⟩
        dsimp only
        rw [if_neg hev]
        exact hdv'
    · rw [if_neg hlt]
      exact ⟨dv', hdv', hle'⟩

theorem relax_fold_visited (u : String) (d : ℚ) :
    ∀ (l : List (String × ℚ × LineData)) (t : DState),
    (l.foldl (relaxOne u d) t).visited = t.visited := by
  intro l
  induction l with
  | nil => intro t; rfl
  | cons e l ih =>
    intro t
    rw [List.foldl_cons, ih]
    obtain ⟨v, w, ld⟩ := e
    simp only [relaxOne]
    by_cases hst : ld.status ≠ "active"
    · rw [if_pos hst]
    · rw [if_neg hst]
      by_cases hlt : ltInf (d + w) (t.dist v) = true
      · rw [if_pos hlt]
      · rw [if_neg hlt]

theorem relax_fold_pqlen (u : String) (d : ℚ) :
    ∀ (l : List (String × ℚ × LineData)) (t : DState),
    (l.foldl (relaxOne u d) t).pq.length ≤ t.pq.length + l.length := by
  intro l
  induction l with
  | nil => intro t; simp
  | cons e l ih =>
    intro t
    rw [List.foldl_cons]
    have h1 := ih (relaxOne u d t e)
    have h2 : (relaxOne u d t e).pq.length ≤ t.pq.length + 1 := by
      obtain ⟨v, w, ld⟩ := e
      simp only [relaxOne]
      by_cases hst : ld.status ≠ "active"
      · rw [if_pos hst]; omega
      · rw [if_neg hst]
        by_cases hlt : ltInf (d + w) (t.dist v) = true
        · rw [if_pos hlt]
          simp
        · rw [if_neg hlt]; omega
    simp only [List.length_cons]
    omega

theorem relax_phase (g : EnergyGraph) (start : String) (hwf : GraphWF g)
    (hnn : NonnegActive g) (hs : start ∈ gkeys g) (u : String) (d : ℚ)
    (t : DState) (ht : RInv g start u d t) :
    RInv g start u d ((edgesOf g u).foldl (relaxOne u d) t) ∧
    ∀ e ∈ edgesOf g u, (e.2.2).status = "active" →
      ∃ dv, ((edgesOf g u).foldl (relaxOne u d) t).dist e.1 = some dv ∧ dv ≤ d + e.2.1 :=
  foldl_inv_post (RInv g start u d)
    (fun t' e => (e.2.2).status = "active" →
      ∃ dv, t'.dist e.1 = some dv ∧ dv ≤ d + e.2.1)
    (relaxOne u d) (edgesOf g u)
    (fun t' e he hR => relaxOne_step g start hwf hnn hs u d t' e he hR)
    (fun t' e e' he hR hQ => relaxOne_mono g start hwf hnn u d t' e e' he hR hQ)
    t ht

/-- The Dijkstra loop, run with fuel at least the measure of its state,
ends in a final state. -/
theorem dloop_spec (g : EnergyGraph) (start end_ : String) (hwf : GraphWF g)
    (hnn : NonnegActive g) (hs : start ∈ gkeys g) :
    ∀ (fuel : Nat) (s : DState), DInv g start s → dmeasure g s ≤ fuel →
      DFinal g start end_ (dloop g end_ fuel s) := by
  intro fuel
  induction fuel with
  | zero =>
    intro s hI hm
    have hpq : s.pq = [] := by
      have : s.pq.length = 0 := by
        unfold dmeasure at hm
        omega
      exact List.length_eq_zero.mp this
    exact dfinal_of_empty g start end_ s hI hpq
  | succ fuel ih =>
    intro s hI hm
    rcases hx : extractMin pqLe s.pq with _ | ⟨⟨d, u⟩, rest⟩
    · have hpq : s.pq = [] := (extractMin_eq_none_iff pqLe s.pq).mp hx
      simp only [dloop]
      rw [hx]
      exact dfinal_of_empty g start end_ s hI hpq
    · have hmem : (d, u) ∈ s.pq := extractMin_mem pqLe hx
      have hminB := extractMin_le pqLe pqLe_total pqLe_trans hx
      have hmin : ∀ e ∈ s.pq, d ≤ e.1 := fun e he => pqLe_fst_le _ _ (hminB e he)
      have hpermL := extractMin_perm pqLe hx
      have hrest : ∀ e ∈ rest, e ∈ s.pq :=
        fun e he => hpermL.subset (List.mem_cons_of_mem _ he)
      have hmeminv : ∀ e ∈ s.pq, e = (d, u) ∨ e ∈ rest :=
        fun e he => List.mem_cons.mp (hpermL.symm.subset he)
      have hpqlen : rest.length + 1 = s.pq.length := extractMin_length pqLe hx
      simp only [dloop]
      rw [hx]
      dsimp only
      by_cases hvis : u ∈ s.visited
      · rw [if_pos hvis]
        refine ih { s with pq := rest } ⟨hI.dsound, ?_, ?_, hI.dist_start, hI.vis_keys,
          hI.vis_nodup, hI.vis_min, hI.relaxed, ?_, ?_, hI.prev_vis, hI.prev_dist,
          hI.prev_start, ?_, hI.vis_or_prev, hI.prev_idx⟩ ?_
        · exact fun e he => hI.pq_dist e (hrest e he)
        · exact fun e he => hI.pq_keys e (hrest e he)
        · intro v hv dv hdv
          have hvpq := hI.frontier v hv dv hdv
          rcases hmeminv _ hvpq with heq | hr
          · injection heq with h1 h2
            exact absurd (h2 ▸ hvis) hv
          · exact hr
        · exact fun v hv e he => hI.vis_le_pq v hv e (hrest e he)
        · exact fun e he => hI.pq_or_prev e (hrest e he)
        · have heq : dmeasure g { s with pq := rest } = rest.length + unvisitedDeg g s := rfl
          have heq2 : dmeasure g s = s.pq.length + unvisitedDeg g s := rfl
          omega
      · rw [if_neg hvis]
        -- the popped distance equals the stored distance of `u`
        obtain ⟨du, hdu, hdule⟩ := hI.pq_dist (d, u) hmem
        have hged : d ≤ du := hmin (du, u) (hI.frontier u hvis du hdu)
        have hdueq : du = d := le_antisymm hdule hged
        subst hdueq
        have hu_keys : u ∈ gkeys g := hI.pq_keys (du, u) hmem
        have hcut : ∀ {v : String} {c : ℚ}, Reaches g start v c →
            (v ∈ s.visited → ∃ dv, s.dist v = some dv ∧ dv ≤ c) ∧
            (v ∉ s.visited → du ≤ c) :=
          fun hr => dinv_cut g start hwf hnn hs s hI du u hmem hmin hr
        have hnodup1 : (s.visited ++ [u]).Nodup := by
          rw [List.nodup_append]
          exact ⟨hI.vis_nodup, List.nodup_singleton u,
            fun x hx hxu => hvis ((List.mem_singleton.mp hxu) ▸ hx)⟩
        have hviskeys1 : ∀ v ∈ s.visited ++ [u], v ∈ gkeys g := by
          intro v hv
          rcases List.mem_append.mp hv with h | h
          · exact hI.vis_keys v h
          · exact (List.mem_singleton.mp h) ▸ hu_keys
        have hvisorprev1 : ∀ v ∈ s.visited ++ [u], v = start ∨ s.prev v ≠ none := by
          intro v hv
          rcases List.mem_append.mp hv with h | h
          · exact hI.vis_or_prev v h
          · exact (List.mem_singleton.mp h) ▸ hI.pq_or_prev (du, u) hmem
        have hprevidx1 : ∀ v pu, s.prev v = some pu → v ∈ s.visited ++ [u] →
            List.indexOf pu (s.visited ++ [u]) < List.indexOf v (s.visited ++ [u]) := by
          intro v pu h hv
          have hpu : pu ∈ s.visited := hI.prev_vis v pu h
          rw [List.indexOf_append_of_mem hpu]
          rcases List.mem_append.mp hv with h2 | h2
          · rw [List.indexOf_append_of_mem h2]
            exact hI.prev_idx v pu h h2
          · have hvu : v = u := List.mem_singleton.mp h2
            subst hvu
            rw [List.indexOf_append_of_not_mem hvis]
            have h3 : List.indexOf pu s.visited < s.visited.length :=
              List.indexOf_lt_length.mpr hpu
            omega
        by_cases hend : u = end_
        · rw [if_pos hend]
          subst hend
          refine ⟨hI.dsound, hI.dist_start, ?_, ?_, hviskeys1, hnodup1,
            fun v pu h => List.mem_append_left _ (hI.prev_vis v pu h),
            hI.prev_dist, hvisorprev1, hprevidx1⟩
          · intro c hc
            exact ⟨du, hdu, (hcut hc).2 hvis⟩
          · intro _
            exact List.mem_append_right _ (List.mem_singleton.mpr rfl)
        · rw [if_neg hend]
          have hR1 : RInv g start u du
              { s with pq := rest, visited := s.visited ++ [u] } := by
            refine ⟨hI.dsound, fun e he => hI.pq_dist e (hrest e he),
              fun e he => hI.pq_keys e (hrest e he), hI.dist_start, hviskeys1, hnodup1,
              ?_, ?_, ?_, ?_, fun v pu h => List.mem_append_left _ (hI.prev_vis v pu h),
              hI.prev_dist, hI.prev_start, fun e he => hI.pq_or_prev e (hrest e he),
              hvisorprev1, hprevidx1,
              List.mem_append_right _ (List.mem_singleton.mpr rfl), hu_keys, hdu, ?_⟩
            · -- vis_min
              intro v hv c hc
              rcases List.mem_append.mp hv with h | h
              · exact hI.vis_min v h c hc
              · have hvu : v = u := List.mem_singleton.mp h
                subst hvu
                exact ⟨du, hdu, (hcut hc).2 hvis⟩
            · -- relaxedO
              intro x hx hxu e he ha
              rcases List.mem_append.mp hx with h | h
              · exact hI.relaxed x h e he ha
              · exact absurd (List.mem_singleton.mp h) hxu
            · -- frontier
              intro v hv dv hdv
              have hv1 : v ∉ s.visited := fun h => hv (List.mem_append_left _ h)
              have hvu : v ≠ u := fun h =>
                hv (List.mem_append_right _ (List.mem_singleton.mpr h))
              have hvpq := hI.frontier v hv1 dv hdv
              rcases hmeminv _ hvpq with heq | hr
              · injection heq with h1 h2
                exact absurd h2 hvu
              · exact hr
            · -- vis_le_pq
              intro v hv e he
              rcases List.mem_append.mp hv with h | h
              · exact hI.vis_le_pq v h e (hrest e he)
              · have hvu : v = u := List.mem_singleton.mp h
                subst hvu
                exact ⟨du, hdu, hmin e (hrest e he)⟩
            · -- hvd
              intro x hx
              rcases List.mem_append.mp hx with h | h
              · obtain ⟨dx, hdx, hdxd⟩ := hI.vis_le_pq x h (du, u) hmem
                exact ⟨dx, hdx, hdxd⟩
              · have hxu : x = u := List.mem_singleton.mp h
                subst hxu
                exact ⟨du, hdu, le_refl du⟩
          obtain ⟨hR2, hQ2⟩ := relax_phase g start hwf hnn hs u du
            { s with pq := rest, visited := s.visited ++ [u] } hR1
          have hI2 : DInv g start ((edgesOf g u).foldl (relaxOne u du)
              { s with pq := rest, visited := s.visited ++ [u] }) := by
            refine ⟨hR2.dsound, hR2.pq_dist, hR2.pq_keys, hR2.dist_start, hR2.vis_keys,
              hR2.vis_nodup, hR2.vis_min, ?_, hR2.frontier, hR2.vis_le_pq, hR2.prev_vis,
              hR2.prev_dist, hR2.prev_start, hR2.pq_or_prev, hR2.vis_or_prev,
              hR2.prev_idx⟩
            intro x hx e he ha
            by_cases hxu : x = u
            · subst hxu
              obtain ⟨dv, hdv, hle⟩ := hQ2 e he ha
              exact ⟨du, dv, hR2.dist_u, hdv, hle⟩
            · exact hR2.relaxedO x hx hxu e he ha
          refine ih _ hI2 ?_
          -- measure decrease
          have hvis2 := relax_fold_visited u du (edgesOf g u)
            { s with pq := rest, visited := s.visited ++ [u] }
          have hlen2 := relax_fold_pqlen u du (edgesOf g u)
            { s with pq := rest, visited := s.visited ++ [u] }
          have hsum := sum_unvisited_append g u s.visited (gkeys g) hwf.nodupKeys
            hu_keys hvis
          have hU2 : unvisitedDeg g ((edgesOf g u).foldl (relaxOne u du)
              { s with pq := rest, visited := s.visited ++ [u] }) =
              ((gkeys g).map
                (fun k => if k ∈ s.visited ++ [u] then 0 else (edgesOf g k).length)).sum := by
            rw [unvisitedDeg, hvis2]
          have hm2 : dmeasure g ((edgesOf g u).foldl (relaxOne u du)
              { s with pq := rest, visited := s.visited ++ [u] }) =
              ((edgesOf g u).foldl (relaxOne u du)
                { s with pq := rest, visited := s.visited ++ [u] }).pq.length +
              unvisitedDeg g ((edgesOf g u).foldl (relaxOne u du)
                { s with pq := rest, visited := s.visited ++ [u] }) := rfl
          have hm0 : dmeasure g s = s.pq.length + unvisitedDeg g s := rfl
          have hU0 : unvisitedDeg g s =
              ((gkeys g).map
                (fun k => if k ∈ s.visited then 0 else (edgesOf g k).length)).sum := rfl
          simp only at hlen2
          omega

/-- Walking the `previous` pointers from any visited node ends at `start`. -/
theorem walk_last (g : EnergyGraph) (start end_ : String) (f : DState)
    (hF : DFinal g start end_ f) :
    ∀ n, ∀ v ∈ f.visited, List.indexOf v f.visited < n →
      ∃ l, walkPrev f.prev n (some v) = l ++ [start] := by
  intro n
  induction n with
  | zero =>
    intro v _ h
    omega
  | succ n ih =>
    intro v hv hvn
    rcases hp : f.prev v with _ | pu
    · have hvs : v = start := by
        rcases hF.vis_or_prev v hv with h | h
        · exact h
        · exact absurd hp h
      subst hvs
      refine ⟨[], ?_⟩
      simp [walkPrev, hp]
    · have hpu : pu ∈ f.visited := hF.prev_vis v pu hp
      have hidx := hF.prev_idx v pu hp hv
      obtain ⟨l, hl⟩ := ih pu hpu (by omega)
      refine ⟨v :: l, ?_⟩
      simp only [walkPrev, hp, hl]
      rfl

theorem dijkstra_init_measure (g : EnergyGraph) (src : String) :
    dmeasure g
      { dist := fun v => if v = src then some 0 else none,
        prev := fun _ => none, pq := [((0 : ℚ), src)], visited := [] } ≤
      dijkstraFuel g := by
  have h0 : unvisitedDeg g
      { dist := fun v => if v = src then some 0 else none,
        prev := fun _ => none, pq := [((0 : ℚ), src)], visited := [] } =
      degTotal g := by
    unfold unvisitedDeg degTotal
    simp
  have h1 : dmeasure g
      { dist := fun v => if v = src then some 0 else none,
        prev := fun _ => none, pq := [((0 : ℚ), src)], visited := [] } =
      1 + unvisitedDeg g
      { dist := fun v => if v = src then some 0 else none,
        prev := fun _ => none, pq := [((0 : ℚ), src)], visited := [] } := rfl
  unfold dijkstraFuel
  omega

/-- On a well-formed graph with non-negative active weights, `dijkstra`
returns, for a reachable target, a path starting at the source together
with the minimum active-path cost. -/
theorem dijkstra_reachable (g : EnergyGraph) (src dst : String) (hwf : GraphWF g)
    (hnn : NonnegActive g) (hs : src ∈ gkeys g) (hd : dst ∈ gkeys g)
    (hreach : ∃ c, Reaches g src dst c) :
    ∃ l c, g.dijkstra src dst = (some (src :: l), some c) ∧
      Reaches g src dst c ∧ (∀ c', Reaches g src dst c' → c ≤ c') := by
  unfold EnergyGraph.dijkstra
  rw [if_pos ⟨hs, hd⟩]
  dsimp only
  generalize hgen : dloop g dst (dijkstraFuel g)
      { dist := fun v => if v = src then some 0 else none,
        prev := fun _ => none, pq := [((0 : ℚ), src)], visited := [] } = f
  have hF : DFinal g src dst f := hgen ▸ dloop_spec g src dst hwf hnn hs (dijkstraFuel g) _
    (dinv_init g src hs) (dijkstra_init_measure g src)
  have hendvis := hF.end_vis hreach
  have hidx : List.indexOf dst f.visited < g.nodes.length + 1 := by
    have h1 : List.indexOf dst f.visited < f.visited.length :=
      List.indexOf_lt_length.mpr hendvis
    have h2 : f.visited.length ≤ (gkeys g).length :=
      (List.subperm_of_subset hF.vis_nodup (fun x hx => hF.vis_keys x hx)).length_le
    have h3 : (gkeys g).length = g.nodes.length := List.length_map ..
    omega
  obtain ⟨l, hl⟩ := walk_last g src dst f hF (g.nodes.length + 1) dst hendvis hidx
  rw [hl]
  have hrev : (l ++ [src]).reverse = src :: l.reverse := by simp
  rw [hrev, List.head?_cons, if_pos rfl]
  obtain ⟨c0, hc0⟩ := hreach
  obtain ⟨de, hde, _⟩ := hF.opt_end c0 hc0
  refine ⟨l.reverse, de, ?_, hF.dsound dst de hde, ?_⟩
  · rw [hde]
  · intro c' hc'
    obtain ⟨de', hde', hle'⟩ := hF.opt_end c' hc'
    rw [hde] at hde'
    injection hde' with h
    rw [h]
    exact hle'

/-- On a well-formed graph with non-negative active weights, `dijkstra`
returns `(None, inf)` for an unreachable target. -/
theorem dijkstra_unreachable (g : EnergyGraph) (src dst : String) (hwf : GraphWF g)
    (hnn : NonnegActive g) (hs : src ∈ gkeys g) (hd : dst ∈ gkeys g)
    (hnr : ¬ ∃ c, Reaches g src dst c) :
    g.dijkstra src dst = (none, none) := by
  unfold EnergyGraph.dijkstra
  rw [if_pos ⟨hs, hd⟩]
  dsimp only
  generalize hgen : dloop g dst (dijkstraFuel g)
      { dist := fun v => if v = src then some 0 else none,
        prev := fun _ => none, pq := [((0 : ℚ), src)], visited := [] } = f
  have hF : DFinal g src dst f := hgen ▸ dloop_spec g src dst hwf hnn hs (dijkstraFuel g) _
    (dinv_init g src hs) (dijkstra_init_measure g src)
  have hprev : f.prev dst = none := by
    rcases h : f.prev dst with _ | pu
    · rfl
    · obtain ⟨dv, hdv⟩ := hF.prev_dist dst pu h
      exact absurd ⟨dv, hF.dsound dst dv hdv⟩ hnr
  have hne : dst ≠ src := by
    intro h
    exact hnr ⟨0, h ▸ Reaches.refl⟩
  have hwalk : walkPrev f.prev (g.nodes.length + 1) (some dst) = [dst] := by
    simp [walkPrev, hprev]
  rw [hwalk]
  simp only [List.reverse_singleton, List.head?_cons]
  rw [if_neg (by
    intro h
    injection h with h
    exact hne h)]

/-- **C1.**  On a graph with no duplicate node keys, adjacency closed over
the key set and non-negative active edge weights, with both endpoints
present: the cost returned by `find_optimal_route(..., "dijkstra")`
(`EnergyGraph.dijkstra`) is the minimum total edge weight over all paths
from `src` to `dst` through active edges; when no such path exists the
call returns `found = false`, `path = []` and no finite cost. -/
theorem dijkstra_optimal (g : EnergyGraph) (src dst : String) (hwf : GraphWF g)
    (hnn : NonnegActive g) (hs : src ∈ gkeys g) (hd : dst ∈ gkeys g) :
    ((∃ c, Reaches g src dst c) →
      ∃ c, (find_optimal_route RouterState.emptyRouter g src dst "dijkstra").1.cost =
          some c ∧
        (g.dijkstra src dst).2 = some c ∧ Reaches g src dst c ∧
        ∀ c', Reaches g src dst c' → c ≤ c') ∧
    ((¬ ∃ c, Reaches g src dst c) →
      g.dijkstra src dst = (none, none) ∧
      (find_optimal_route RouterState.emptyRouter g src dst "dijkstra").1.found = false ∧
      (find_optimal_route RouterState.emptyRouter g src dst "dijkstra").1.path = [] ∧
      (find_optimal_route RouterState.emptyRouter g src dst "dijkstra").1.cost = none) := by
  constructor
  · intro hreach
    obtain ⟨l, c, hdk, hrc, hmin⟩ := dijkstra_reachable g src dst hwf hnn hs hd hreach
    refine ⟨c, ?_, by rw [hdk], hrc, hmin⟩
    have hfound : (0 : Nat) < (src :: l).length := by simp
    simp [find_optimal_route, RouterState.emptyRouter, dictGet, hdk, hfound]
  · intro hnr
    have hdk := dijkstra_unreachable g src dst hwf hnn hs hd hnr
    refine ⟨hdk, ?_, ?_, ?_⟩ <;>
      simp [find_optimal_route, RouterState.emptyRouter, dictGet, hdk]

theorem gABC_keys : gkeys gABC = ["A", "B", "C"] := by
  simp [gABC, gkeys, EnergyGraph.emptyGraph, EnergyGraph.add_node, EnergyGraph.add_edge,
    edgesAppend, dictSet, dictGet]

theorem gABC_edges_A : edgesOf gABC "A" = [("B", 0, ⟨1, 0, 1000, "active"⟩)] := by
  simp [gABC, edgesOf, EnergyGraph.emptyGraph, EnergyGraph.add_node, EnergyGraph.add_edge,
    edgesAppend, dictSet, dictGet]

theorem gABC_edges_B :
    edgesOf gABC "B" = [("A", 0, ⟨1, 0, 1000, "active"⟩), ("C", 0, ⟨1, 0, 1000, "active"⟩)] := by
  simp [gABC, edgesOf, EnergyGraph.emptyGraph, EnergyGraph.add_node, EnergyGraph.add_edge,
    edgesAppend, dictSet, dictGet]

theorem gABC_edges_C : edgesOf gABC "C" = [("B", 0, ⟨1, 0, 1000, "active"⟩)] := by
  simp [gABC, edgesOf, EnergyGraph.emptyGraph, EnergyGraph.add_node, EnergyGraph.add_edge,
    edgesAppend, dictSet, dictGet]

theorem dijkstra_optimal_witness :
    ((∃ c, Reaches gABC "A" "C" c) →
      ∃ c, (find_optimal_route RouterState.emptyRouter gABC "A" "C" "dijkstra").1.cost =
          some c ∧
        (gABC.dijkstra "A" "C").2 = some c ∧ Reaches gABC "A" "C" c ∧
        ∀ c', Reaches gABC "A" "C" c' → c ≤ c') ∧
    ((¬ ∃ c, Reaches gABC "A" "C" c) →
      gABC.dijkstra "A" "C" = (none, none) ∧
      (find_optimal_route RouterState.emptyRouter gABC "A" "C" "dijkstra").1.found = false ∧
      (find_optimal_route RouterState.emptyRouter gABC "A" "C" "dijkstra").1.path = [] ∧
      (find_optimal_route RouterState.emptyRouter gABC "A" "C" "dijkstra").1.cost = none) :=
  dijkstra_optimal gABC "A" "C"
    ⟨by rw [gABC_keys]; simp, by
      intro u hu e he
      rw [gABC_keys] at hu ⊢
      simp only [List.mem_cons, List.mem_singleton] at hu
      rcases hu with rfl | rfl | hu
      · rw [gABC_edges_A] at he
        simp only [List.mem_singleton] at he
        subst he
        simp
      · rw [gABC_edges_B] at he
        rcases List.mem_cons.mp he with rfl | he
        · simp
        · simp only [List.mem_singleton] at he
          subst he
          simp
      · simp only [List.not_mem_nil, or_false] at hu
        subst hu
        rw [gABC_edges_C] at he
        simp only [List.mem_singleton] at he
        subst he
        simp⟩
    (by
      intro u hu e he hst
      rw [gABC_keys] at hu
      simp only [List.mem_cons, List.mem_singleton] at hu
      rcases hu with rfl | rfl | hu
      · rw [gABC_edges_A] at he
        simp only [List.mem_singleton] at he
        subst he
        norm_num
      · rw [gABC_edges_B] at he
        rcases List.mem_cons.mp he with rfl | he
        · norm_num
        · simp only [List.mem_singleton] at he
          subst he
          norm_num
      · simp only [List.not_mem_nil, or_false] at hu
        subst hu
        rw [gABC_edges_C] at he
        simp only [List.mem_singleton] at he
        subst he
        norm_num)
    (by rw [gABC_keys]; simp)
    (by rw [gABC_keys]; simp)

end EcoGrid
